import Mathlib

/-!
Verification of the data-structure library against its specification.

The Rust sources under `rust/src` (Fenwick tree, union-find, sparse table,
treap, KMP) are shallowly embedded below: usize becomes Nat, i64 becomes Int,
vectors become lists, and each imperative loop becomes a structurally or
well-foundedly recursive function carrying the mutated state explicitly.
The Python binding layer (`bindings/src/lib.rs`) is embedded where a claim
depends on its bounds checks.
-/

namespace Fenwick

/-- The expression `index & index.wrapping_neg()` from the Rust source, on a
64-bit usize: for `0 < n < 2^64` natural subtraction `2^64 - n` coincides with
wrapping negation, and for `n = 0` both sides give `0`. -/
def lowbit (n : Nat) : Nat := n &&& (2 ^ 64 - n)

/-- Every positive natural splits as an odd number times a power of two. -/
theorem exists_odd_mul_pow (n : Nat) (h : 0 < n) : ∃ a q, n = (2 * q + 1) * 2 ^ a := by
  induction n using Nat.strong_induction_on with
  | _ n ih =>
    rcases Nat.even_or_odd n with he | ho
    · obtain ⟨m, hm⟩ := he
      have hm2 : n = 2 * m := by omega
      have hmpos : 0 < m := by omega
      obtain ⟨a, q, haq⟩ := ih m (by omega) hmpos
      exact ⟨a + 1, q, by rw [hm2, haq]; ring⟩
    · obtain ⟨q, hq⟩ := ho
      exact ⟨0, q, by omega⟩

/-- Quotient of `q * B + r` by `B` when the remainder is in range. -/
theorem mul_add_div_eq {B q r : Nat} (hB : 0 < B) (hr : r < B) :
    (q * B + r) / B = q := by
  rw [Nat.add_comm, Nat.mul_comm q B, Nat.add_mul_div_left _ _ hB, Nat.div_eq_of_lt hr]
  omega

theorem testBit_odd_mul_pow_lt {a q i : Nat} (hi : i < a) :
    Nat.testBit ((2 * q + 1) * 2 ^ a) i = false := by
  rw [Nat.testBit_to_div_mod]
  have h1 : (2 * q + 1) * 2 ^ a / 2 ^ i = (2 * q + 1) * 2 ^ (a - i) := by
    have hsplit : (2 * q + 1) * 2 ^ a = ((2 * q + 1) * 2 ^ (a - i)) * 2 ^ i := by
      rw [Nat.mul_assoc, ← pow_add]; congr 2; omega
    rw [hsplit, Nat.mul_div_cancel _ (Nat.two_pow_pos i)]
  have hc : (2 : Nat) ^ (a - i) = 2 * 2 ^ (a - i - 1) := by
    rw [← pow_succ']; congr 1; omega
  have h2 : (2 * q + 1) * 2 ^ (a - i) = 2 * ((2 * q + 1) * 2 ^ (a - i - 1)) := by
    rw [hc]; ring
  have h3 : (2 * q + 1) * 2 ^ (a - i) % 2 = 0 := by omega
  simp [h1, h3]

theorem testBit_odd_mul_pow_self {a q : Nat} :
    Nat.testBit ((2 * q + 1) * 2 ^ a) a = true := by
  rw [Nat.testBit_to_div_mod]
  have h1 : (2 * q + 1) * 2 ^ a / 2 ^ a = 2 * q + 1 :=
    Nat.mul_div_cancel _ (Nat.two_pow_pos a)
  simp [h1, Nat.mul_add_mod]

theorem div_pow_eq_pred_div_pow {a q i : Nat} (hi : a < i) :
    (2 * q + 1) * 2 ^ a / 2 ^ i = ((2 * q + 1) * 2 ^ a - 1) / 2 ^ i := by
  have hpow : 0 < 2 ^ a := Nat.two_pow_pos a
  have h2a : (2 : Nat) ^ (a + 1) = 2 * 2 ^ a := by rw [pow_succ]; ring
  have hlt : (2 : Nat) ^ a < 2 ^ (a + 1) := by omega
  have e1 : (2 * q + 1) * 2 ^ a = q * 2 ^ (a + 1) + 2 ^ a := by rw [h2a]; ring
  have e2 : (2 * q + 1) * 2 ^ a - 1 = q * 2 ^ (a + 1) + (2 ^ a - 1) := by omega
  have d1 : (2 * q + 1) * 2 ^ a / 2 ^ (a + 1) = q := by
    rw [e1]; exact mul_add_div_eq (Nat.two_pow_pos _) hlt
  have d2 : ((2 * q + 1) * 2 ^ a - 1) / 2 ^ (a + 1) = q := by
    rw [e2]; exact mul_add_div_eq (Nat.two_pow_pos _) (by omega)
  have hsplit : 2 ^ i = 2 ^ (a + 1) * 2 ^ (i - (a + 1)) := by
    rw [← pow_add]; congr 1; omega
  rw [hsplit, ← Nat.div_div_eq_div_mul, ← Nat.div_div_eq_div_mul, d1, d2]

theorem testBit_odd_mul_pow_gt {a q i : Nat} (hi : a < i) :
    Nat.testBit ((2 * q + 1) * 2 ^ a) i =
      Nat.testBit ((2 * q + 1) * 2 ^ a - 1) i := by
  rw [Nat.testBit_to_div_mod, Nat.testBit_to_div_mod, div_pow_eq_pred_div_pow hi]

/-- Characterisation of `lowbit` on the usize domain: it extracts the lowest
set bit, `2 ^ a` where `n = odd * 2 ^ a`. -/
theorem lowbit_eq {n a q : Nat} (hn : n = (2 * q + 1) * 2 ^ a) (hw : n < 2 ^ 64) :
    lowbit n = 2 ^ a := by
  have hpos : 0 < n := by
    rw [hn]; exact Nat.mul_pos (by omega) (Nat.pos_pow_of_pos a (by norm_num))
  have ha64 : a < 64 := by
    by_contra hcon
    have h1 : 2 ^ 64 ≤ 2 ^ a := Nat.pow_le_pow_right (by norm_num) (by omega)
    have h2 : 2 ^ a ≤ n := by
      rw [hn]; calc 2 ^ a = 1 * 2 ^ a := (Nat.one_mul _).symm
        _ ≤ (2 * q + 1) * 2 ^ a := Nat.mul_le_mul_right _ (by omega)
    omega
  have hsub : 2 ^ 64 - n = 2 ^ 64 - ((n - 1) + 1) := by omega
  apply Nat.eq_of_testBit_eq
  intro i
  rw [lowbit, Nat.testBit_land, hsub,
    Nat.testBit_two_pow_sub_succ (by omega) i, Nat.testBit_two_pow]
  rcases Nat.lt_trichotomy i a with hlt | heq | hgt
  · rw [hn, testBit_odd_mul_pow_lt hlt]
    simp [show ¬ a = i by omega]
  · subst heq
    have hfalse : Nat.testBit (n - 1) i = false := by
      rw [hn, Nat.testBit_to_div_mod]
      have d : ((2 * q + 1) * 2 ^ i - 1) / 2 ^ i = 2 * q := by
        have hpow : 0 < 2 ^ i := Nat.two_pow_pos i
        have e3 : (2 * q + 1) * 2 ^ i - 1 = (2 * q) * 2 ^ i + (2 ^ i - 1) := by
          have : (2 * q + 1) * 2 ^ i = (2 * q) * 2 ^ i + 2 ^ i := by ring
          omega
        rw [e3]; exact mul_add_div_eq hpow (by omega)
      simp [d, Nat.mul_mod_right]
    rw [hn, testBit_odd_mul_pow_self, ← hn, hfalse]
    simp [ha64]
  · rw [hn, testBit_odd_mul_pow_gt hgt]
    cases hbit : Nat.testBit ((2 * q + 1) * 2 ^ a - 1) i <;>
      simp [hbit, show ¬ a = i by omega]

theorem lowbit_pos {n : Nat} (h0 : 0 < n) (hw : n < 2 ^ 64) : 0 < lowbit n := by
  obtain ⟨a, q, haq⟩ := exists_odd_mul_pow n h0
  rw [lowbit_eq haq hw]
  exact Nat.pos_pow_of_pos a (by norm_num)

theorem lowbit_le {n : Nat} (h0 : 0 < n) (hw : n < 2 ^ 64) : lowbit n ≤ n := by
  obtain ⟨a, q, haq⟩ := exists_odd_mul_pow n h0
  rw [lowbit_eq haq hw, haq]
  calc 2 ^ a = 1 * 2 ^ a := (Nat.one_mul _).symm
    _ ≤ (2 * q + 1) * 2 ^ a := Nat.mul_le_mul_right _ (by omega)

/-- The Fenwick tree state: the 1-indexed auxiliary array `tree` (entry 0 unused),
holding i64 values modelled as Int. -/
structure FenwickTree where
  tree : List Int

/-- FenwickTree::new. -/
def new (size : Nat) : FenwickTree := ⟨List.replicate (size + 1) 0⟩

/-- The while loop of FenwickTree::add: climb `index += index & index.wrapping_neg()`
while `index < tree.len()`. The loop is entered with a positive index (`add` passes
`index + 1`) and the index only grows; the positivity and usize-width conjuncts in
the guard make this explicit and the recursion well founded. -/
def addGo (tree : List Int) (index : Nat) (delta : Int) : List Int :=
  if h : 0 < index ∧ index < tree.length ∧ index < 2 ^ 64 then
    addGo (tree.set index (tree.getD index 0 + delta)) (index + lowbit index) delta
  else tree
termination_by tree.length - index
decreasing_by
  simp only [List.length_set]
  have := lowbit_pos h.1 h.2.2
  omega

/-- FenwickTree::add, 0-based user index. -/
def add (ft : FenwickTree) (index : Nat) (delta : Int) : FenwickTree :=
  ⟨addGo ft.tree (index + 1) delta⟩

/-- The while loop of FenwickTree::query: descend `index -= index & index.wrapping_neg()`
while `index > 0`; the usize-width conjunct in the guard makes termination manifest. -/
def queryGo (tree : List Int) (index : Nat) (sum : Int) : Int :=
  if h : 0 < index ∧ index < 2 ^ 64 then
    queryGo tree (index - lowbit index) (sum + tree.getD index 0)
  else sum
termination_by index
decreasing_by
  have := lowbit_pos h.1 h.2
  omega

/-- FenwickTree::query, 0-based user index, inclusive prefix sum. -/
def query (ft : FenwickTree) (index : Nat) : Int := queryGo ft.tree (index + 1) 0

/-- FenwickTree::range_sum (the Rust parameter names are start and end). -/
def range_sum (ft : FenwickTree) (start stop : Nat) : Int :=
  if start > stop then 0
  else if start = 0 then query ft stop
  else query ft stop - query ft (start - 1)

/-- FenwickTree::len. -/
def len (ft : FenwickTree) : Nat := ft.tree.length - 1

/-- The loop body of FenwickTree::from_vec, processing values from index `i` on:
`tree[i+1] += values[i]` then the cascading push to `parent_idx` when in range. -/
def fromVecGo (values : List Int) (tree : List Int) (i : Nat) : List Int :=
  if h : i < values.length then
    let idx := i + 1
    let t1 := tree.set idx (tree.getD idx 0 + values.getD i 0)
    let parent_idx := idx + lowbit idx
    let t2 := if parent_idx < t1.length then
        t1.set parent_idx (t1.getD parent_idx 0 + t1.getD idx 0)
      else t1
    fromVecGo values t2 (i + 1)
  else tree
termination_by values.length - i

/-- FenwickTree::from_vec. -/
def from_vec (values : List Int) : FenwickTree :=
  ⟨fromVecGo values (List.replicate (values.length + 1) 0) 0⟩

/-- The binding layer's error type (PyIndexError is the only one range_sum raises). -/
inductive PyErr where
  | indexOutOfRange
deriving DecidableEq

/-- PyFenwickTree::range_sum from bindings/src/lib.rs: rejects `end >= len`,
never validates `start`, and otherwise forwards to the core range_sum. -/
def pyRangeSum (ft : FenwickTree) (start stop : Nat) : Except PyErr Int :=
  if stop ≥ len ft then Except.error PyErr.indexOutOfRange
  else Except.ok (range_sum ft start stop)

end Fenwick

/-- C8: range_sum through the binding fails with IndexOutOfRange exactly when
`end >= size`; whenever `end` is in range it returns Ok: 0 when `start > end`
(start itself never validated), `query(end) - query(start-1)` for `0 < start ≤ end`,
and `query(end)` for `start = 0`. -/
theorem fenwick_range_sum_bounds (ft : Fenwick.FenwickTree) (start stop : Nat) :
    (Fenwick.pyRangeSum ft start stop = Except.error Fenwick.PyErr.indexOutOfRange
      ↔ stop ≥ Fenwick.len ft) ∧
    (stop < Fenwick.len ft → start > stop →
      Fenwick.pyRangeSum ft start stop = Except.ok 0) ∧
    (stop < Fenwick.len ft → 0 < start → start ≤ stop →
      Fenwick.pyRangeSum ft start stop =
        Except.ok (Fenwick.query ft stop - Fenwick.query ft (start - 1))) ∧
    (stop < Fenwick.len ft →
      Fenwick.pyRangeSum ft 0 stop = Except.ok (Fenwick.query ft stop)) := by
  refine ⟨⟨fun h => ?_, fun h => by simp [Fenwick.pyRangeSum, h]⟩, ?_, ?_, ?_⟩
  · by_contra hcon
    simp [Fenwick.pyRangeSum, hcon] at h
  · intro h1 h2
    simp only [Fenwick.pyRangeSum, Fenwick.range_sum, if_neg (by omega : ¬ stop ≥ Fenwick.len ft)]
    rw [if_pos h2]
  · intro h1 h2 h3
    simp only [Fenwick.pyRangeSum, Fenwick.range_sum, if_neg (by omega : ¬ stop ≥ Fenwick.len ft)]
    rw [if_neg (by omega), if_neg (by omega)]
  · intro h1
    have hnot : ¬ stop ≥ Fenwick.len ft := by omega
    simp [Fenwick.pyRangeSum, Fenwick.range_sum, hnot]

/-- Witness for C8 at a concrete tree of size 3: stop 5 is out of range, and
in-range calls return the stated Ok values. -/
theorem fenwick_range_sum_bounds_witness :
    Fenwick.pyRangeSum (Fenwick.new 3) 7 5 =
        Except.error Fenwick.PyErr.indexOutOfRange ∧
    Fenwick.pyRangeSum (Fenwick.new 3) 2 1 = Except.ok 0 ∧
    Fenwick.pyRangeSum (Fenwick.new 3) 1 2 =
      Except.ok (Fenwick.query (Fenwick.new 3) 2 - Fenwick.query (Fenwick.new 3) 0) ∧
    Fenwick.pyRangeSum (Fenwick.new 3) 0 2 =
      Except.ok (Fenwick.query (Fenwick.new 3) 2) := by
  have h := fenwick_range_sum_bounds (Fenwick.new 3)
  refine ⟨?_, ?_, ?_, ?_⟩
  · exact ((h 7 5).1).2 (by decide)
  · exact (h 2 1).2.1 (by decide) (by decide)
  · exact (h 1 2).2.2.1 (by decide) (by decide) (by decide)
  · exact (h 0 2).2.2.2 (by decide)

namespace SparseT

/-- Sparse table state: `table[k][i]` holds the min of the `2^k` window at `i`,
`log` the precomputed floor-log2 values. Elements are generic over a linear
order, as in the Rust `T: Copy + Ord` with `std::cmp::min`. -/
structure SparseTable (α : Type) where
  table : List (List α)
  log : List Nat

/-- The loop `for i in 2..=n { log[i] = log[i/2] + 1 }` of from_slice. -/
def logGo (n : Nat) (log : List Nat) (i : Nat) : List Nat :=
  if i ≤ n then logGo n (log.set i (log.getD (i / 2) 0 + 1)) (i + 1) else log
termination_by n + 1 - i

/-- The log table of from_slice: `vec![0; n+1]` then the filling loop from 2. -/
def buildLog (n : Nat) : List Nat := logGo n (List.replicate (n + 1) 0) 2

/-- The row-building loop `for k in 1..max_k` of from_slice: each row is pushed
from the previous one (`1 << k` written as `2 ^ k`). -/
def rowsGo (α : Type) [LinearOrder α] [Inhabited α] (n max_k : Nat)
    (table : List (List α)) (k : Nat) : List (List α) :=
  if k < max_k then
    let len := n - 2 ^ k + 1
    let prev := table.getD (k - 1) []
    let row := (List.range len).map
      (fun i => min (prev.getD i default) (prev.getD (i + 2 ^ (k - 1)) default))
    rowsGo α n max_k (table ++ [row]) (k + 1)
  else table
termination_by max_k - k

/-- SparseTable::from_slice. -/
def from_slice {α : Type} [LinearOrder α] [Inhabited α] (arr : List α) : SparseTable α :=
  let n := arr.length
  let log := buildLog n
  let max_k := if n = 0 then 0 else log.getD n 0 + 1
  if n = 0 then ⟨[], log⟩
  else ⟨rowsGo α n max_k [arr] 1, log⟩

/-- SparseTable::query on the inclusive range [l, r]. -/
def query {α : Type} [LinearOrder α] [Inhabited α] (st : SparseTable α)
    (l r : Nat) : Option α :=
  if st.table.isEmpty then none
  else
    let n := (st.table.getD 0 []).length
    if l > r ∨ r ≥ n then none
    else
      let k := st.log.getD (r - l + 1) 0
      let left := (st.table.getD k []).getD l default
      let right := (st.table.getD k []).getD (r + 1 - 2 ^ k) default
      some (min left right)

/-- The value `m` is the minimum of `arr[lo ..= hi]` (attained and a lower bound). -/
def IsMinOn {α : Type} [LinearOrder α] [Inhabited α] (m : α) (arr : List α)
    (lo hi : Nat) : Prop :=
  (∃ j, lo ≤ j ∧ j ≤ hi ∧ m = arr.getD j default) ∧
  ∀ j, lo ≤ j → j ≤ hi → m ≤ arr.getD j default

/-- Row `k` of the table: correct length and each entry the min of its window. -/
def RowOk {α : Type} [LinearOrder α] [Inhabited α] (arr : List α) (k : Nat)
    (row : List α) : Prop :=
  row.length + 2 ^ k = arr.length + 1 ∧
  ∀ i, i + 2 ^ k ≤ arr.length → IsMinOn (row.getD i default) arr i (i + 2 ^ k - 1)

theorem isMinOn_union {α : Type} [LinearOrder α] [Inhabited α]
    {m1 m2 : α} {arr : List α} {lo1 hi1 lo2 hi2 lo hi : Nat}
    (h1 : IsMinOn m1 arr lo1 hi1) (h2 : IsMinOn m2 arr lo2 hi2)
    (hsub1 : lo ≤ lo1 ∧ hi1 ≤ hi) (hsub2 : lo ≤ lo2 ∧ hi2 ≤ hi)
    (hcover : ∀ j, lo ≤ j → j ≤ hi → (lo1 ≤ j ∧ j ≤ hi1) ∨ (lo2 ≤ j ∧ j ≤ hi2)) :
    IsMinOn (min m1 m2) arr lo hi := by
  obtain ⟨⟨j1, hj1a, hj1b, hj1c⟩, hlb1⟩ := h1
  obtain ⟨⟨j2, hj2a, hj2b, hj2c⟩, hlb2⟩ := h2
  constructor
  · rcases min_cases m1 m2 with ⟨he, _⟩ | ⟨he, _⟩
    · exact ⟨j1, by omega, by omega, by rw [he, hj1c]⟩
    · exact ⟨j2, by omega, by omega, by rw [he, hj2c]⟩
  · intro j hjl hjr
    rcases hcover j hjl hjr with ⟨ha, hb⟩ | ⟨ha, hb⟩
    · exact le_trans (min_le_left _ _) (hlb1 j ha hb)
    · exact le_trans (min_le_right _ _) (hlb2 j ha hb)

theorem rowOk_zero {α : Type} [LinearOrder α] [Inhabited α] (arr : List α) :
    RowOk arr 0 arr := by
  refine ⟨by simp, fun i hi => ⟨⟨i, le_refl i, by omega, rfl⟩, fun j hj1 hj2 => ?_⟩⟩
  have : j = i := by omega
  simp [this]

theorem rowOk_step {α : Type} [LinearOrder α] [Inhabited α]
    (arr prev : List α) (c : Nat) (hOk : RowOk arr c prev)
    (hn : 2 ^ (c + 1) ≤ arr.length) :
    RowOk arr (c + 1) ((List.range (arr.length - 2 ^ (c + 1) + 1)).map
      (fun i => min (prev.getD i default) (prev.getD (i + 2 ^ c) default))) := by
  obtain ⟨hlen, hwin⟩ := hOk
  have hps : (2 : Nat) ^ (c + 1) = 2 ^ c + 2 ^ c := by rw [pow_succ]; ring
  have hpos : (0 : Nat) < 2 ^ c := Nat.two_pow_pos c
  constructor
  · simp only [List.length_map, List.length_range]
    omega
  · intro i hi
    have hilt : i < arr.length - 2 ^ (c + 1) + 1 := by omega
    have hget : ((List.range (arr.length - 2 ^ (c + 1) + 1)).map
        (fun i => min (prev.getD i default) (prev.getD (i + 2 ^ c) default))).getD i default
        = min (prev.getD i default) (prev.getD (i + 2 ^ c) default) := by
      rw [List.getD_eq_getElem _ _ (by simpa using hilt)]
      simp
    rw [hget]
    have h1 := hwin i (by omega)
    have h2 := hwin (i + 2 ^ c) (by omega)
    exact isMinOn_union h1 h2 ⟨le_refl i, by omega⟩ ⟨by omega, by omega⟩
      (fun j hj1 hj2 => by omega)

/-- After the build loop from a well-formed partial table, every row below
`max_k` satisfies RowOk. -/
theorem rowsGo_ok {α : Type} [LinearOrder α] [Inhabited α]
    (arr : List α) (max_k : Nat)
    (hpow : ∀ kk, kk < max_k → 2 ^ kk ≤ arr.length)
    (k : Nat) (table : List (List α)) (hk0 : 0 < k) (hkm : k ≤ max_k)
    (hlen : table.length = k)
    (hrows : ∀ j, j < k → RowOk arr j (table.getD j [])) :
    (rowsGo α arr.length max_k table k).length = max_k ∧
    ∀ j, j < max_k → RowOk arr j ((rowsGo α arr.length max_k table k).getD j []) := by
  rw [rowsGo]
  by_cases hlt : k < max_k
  · rw [if_pos hlt]
    have hk1 : k - 1 + 1 = k := by omega
    have hstep := rowOk_step arr (table.getD (k - 1) []) (k - 1)
      (hrows (k - 1) (by omega)) (by rw [hk1]; exact hpow k hlt)
    rw [hk1] at hstep
    have happ := rowsGo_ok arr max_k hpow (k + 1)
      (table ++ [(List.range (arr.length - 2 ^ k + 1)).map
        (fun i => min ((table.getD (k - 1) []).getD i default)
          ((table.getD (k - 1) []).getD (i + 2 ^ (k - 1)) default))])
      (by omega) (by omega) (by simp [hlen])
      (fun j hj => by
        rcases Nat.lt_or_ge j k with hjk | hjk
        · rw [List.getD_append _ _ _ _ (by omega)]
          exact hrows j hjk
        · have hjeq : j = k := by omega
          subst hjeq
          rw [List.getD_append_right _ _ _ _ (by omega), hlen, Nat.sub_self]
          simpa using hstep)
    exact happ
  · rw [if_neg hlt]
    have hkeq : k = max_k := by omega
    subst hkeq
    exact ⟨hlen, fun j hj => hrows j hj⟩
termination_by max_k - k

theorem getD_set_self {α : Type} {l : List α} {i : Nat} {a d : α} (h : i < l.length) :
    (l.set i a).getD i d = a := by
  simp [List.getD_eq_getElem?_getD, List.getElem?_set_self h]

theorem getD_set_ne {α : Type} {l : List α} {i j : Nat} (h : i ≠ j) (a d : α) :
    (l.set i a).getD j d = l.getD j d := by
  simp [List.getD_eq_getElem?_getD, List.getElem?_set_ne h]

/-- The log-filling loop leaves `Nat.log2` at every index up to n once the
indices below i already hold it. -/
theorem logGo_ok (n : Nat) (log : List Nat) (i : Nat) (hi : 2 ≤ i)
    (hlen : log.length = n + 1)
    (hprev : ∀ j, j < i → j ≤ n → log.getD j 0 = Nat.log2 j) :
    ∀ j, j ≤ n → (logGo n log i).getD j 0 = Nat.log2 j := by
  rw [logGo]
  by_cases hin : i ≤ n
  · rw [if_pos hin]
    apply logGo_ok n _ (i + 1) (by omega) (by simp [hlen])
    intro j hj hjn
    rcases Nat.lt_or_ge j i with hji | hji
    · rw [getD_set_ne (by omega)]
      exact hprev j hji hjn
    · have hij : j = i := by omega
      subst hij
      rw [getD_set_self (by omega)]
      have hhalf : log.getD (j / 2) 0 = Nat.log2 (j / 2) :=
        hprev (j / 2) (by omega) (by omega)
      rw [hhalf]
      conv_rhs => rw [Nat.log2]
      rw [if_pos (by omega : j ≥ 2)]
  · rw [if_neg hin]
    intro j hj
    exact hprev j (by omega) hj
termination_by n + 1 - i

theorem buildLog_ok (n : Nat) : ∀ j, j ≤ n → (buildLog n).getD j 0 = Nat.log2 j := by
  apply logGo_ok n _ 2 (by omega) (by simp)
  intro j hj hjn
  interval_cases j
  · simp [Nat.log2]
  · rw [Nat.log2]
    simp

theorem log2_le_log2 {m n : Nat} (hm : m ≠ 0) (h : m ≤ n) : Nat.log2 m ≤ Nat.log2 n := by
  have h1 : 2 ^ Nat.log2 m ≤ m := Nat.log2_self_le hm
  exact (Nat.le_log2 (by omega)).2 (by omega)

/-- C4: on any source array, query(l, r) returns the minimum of arr[l..=r]
whenever l ≤ r < n, and none whenever the table is empty, l > r, or r ≥ n. -/
theorem sparse_table_query_correct (arr : List Int) (l r : Nat) :
    (l ≤ r → r < arr.length →
      ∃ m, query (from_slice arr) l r = some m ∧ IsMinOn m arr l r) ∧
    (l > r ∨ r ≥ arr.length → query (from_slice arr) l r = none) := by
  by_cases hn0 : arr.length = 0
  · constructor
    · intro hlr hr; omega
    · intro hcase
      have hfs : from_slice arr = ⟨[], buildLog arr.length⟩ := by
        simp only [from_slice]
        rw [if_pos hn0]
      rw [hfs, query]
      simp
  · have hne : arr.length ≠ 0 := hn0
    set n := arr.length with hn
    set mk := (buildLog n).getD n 0 + 1 with hmk
    have hfs : from_slice arr = ⟨rowsGo Int n mk [arr] 1, buildLog n⟩ := by
      simp only [from_slice]
      rw [if_neg hn0, if_neg hn0]
    have hmkval : mk = Nat.log2 n + 1 := by rw [hmk, buildLog_ok n n (le_refl n)]
    have hpow : ∀ kk, kk < mk → 2 ^ kk ≤ n := by
      intro kk hkk
      calc 2 ^ kk ≤ 2 ^ Nat.log2 n :=
            Nat.pow_le_pow_right (by omega) (by omega)
        _ ≤ n := Nat.log2_self_le hne
    have hT := rowsGo_ok arr mk hpow 1 [arr] (by omega) (by omega) (by simp)
      (fun j hj => by
        have hj0 : j = 0 := by omega
        subst hj0
        simpa using rowOk_zero arr)
    set T := rowsGo Int n mk [arr] 1 with hTdef
    obtain ⟨hTlen, hTrows⟩ := hT
    have hTne : T.isEmpty = false := by
      rw [List.isEmpty_eq_false_iff_exists_mem]
      have : T ≠ [] := by
        intro hcon
        rw [hcon] at hTlen
        simp at hTlen
        omega
      exact List.exists_mem_of_ne_nil _ this
    have hrow0 := hTrows 0 (by omega)
    have hrow0len : (T.getD 0 []).length = n := by
      have := hrow0.1
      simpa using this
    constructor
    · intro hlr hr
      have hlen1 : r - l + 1 ≤ n := by omega
      have hlen1ne : r - l + 1 ≠ 0 := by omega
      set k := Nat.log2 (r - l + 1) with hkdef
      have hkmk : k < mk := by
        have := log2_le_log2 hlen1ne hlen1
        omega
      have hklog : (buildLog n).getD (r - l + 1) 0 = k := buildLog_ok n _ hlen1
      have h2k_le : 2 ^ k ≤ r - l + 1 := Nat.log2_self_le hlen1ne
      have h2k_gt : r - l + 1 < 2 ^ (k + 1) := Nat.lt_log2_self
      have h2ks : (2 : Nat) ^ (k + 1) = 2 ^ k + 2 ^ k := by rw [pow_succ]; ring
      obtain ⟨hkL, hkW⟩ := hTrows k hkmk
      have hleft := hkW l (by omega)
      have hright := hkW (r + 1 - 2 ^ k) (by omega)
      have hmin : IsMinOn
          (min ((T.getD k []).getD l default) ((T.getD k []).getD (r + 1 - 2 ^ k) default))
          arr l r := isMinOn_union hleft hright
        ⟨le_refl l, by omega⟩ ⟨by omega, by omega⟩ (fun j hj1 hj2 => by omega)
      refine ⟨_, ?_, hmin⟩
      rw [hfs, query]
      simp only [hTne, Bool.false_eq_true, if_false, hrow0len]
      rw [if_neg (by omega), hklog]
    · intro hcase
      rw [hfs, query]
      simp only [hTne, Bool.false_eq_true, if_false, hrow0len]
      rw [if_pos (by omega)]

/-- Witness for C4: on [5, 2, 4] the range [1, 2] has minimum 2, and an
inverted range yields none. -/
theorem sparse_table_query_correct_witness :
    (∃ m, query (from_slice [(5 : Int), 2, 4]) 1 2 = some m ∧
      IsMinOn m [(5 : Int), 2, 4] 1 2) ∧
    query (from_slice [(5 : Int), 2, 4]) 2 1 = none :=
  ⟨(sparse_table_query_correct [5, 2, 4] 1 2).1 (by omega) (by norm_num),
   (sparse_table_query_correct [5, 2, 4] 2 1).2 (by omega)⟩

end SparseT

namespace UF

/-- The union-find state: parent links, subtree sizes, and the number of
disjoint sets. -/
structure UnionFind where
  parent : List Nat
  size : List Nat
  count : Nat

/-- UnionFind::new. -/
def new (n : Nat) : UnionFind := ⟨List.range n, List.replicate n 1, n⟩

def IsRoot (parent : List Nat) (x : Nat) : Prop := parent.getD x 0 = x

instance (parent : List Nat) (x : Nat) : Decidable (IsRoot parent x) :=
  inferInstanceAs (Decidable (_ = _))

/-- Following the parent link k times. -/
def iterP (parent : List Nat) : Nat → Nat → Nat
  | 0, x => x
  | k + 1, x => iterP parent k (parent.getD x 0)

/-- The first loop of UnionFind::find: `while root != parent[root] { root = parent[root] }`,
with explicit fuel; in any parent forest whose chains reach a root the nodes on a
chain are distinct, so fuel `parent.len()` always suffices. -/
def rootGo (parent : List Nat) : Nat → Nat → Nat
  | 0, root => root
  | fuel + 1, root =>
    if parent.getD root 0 = root then root else rootGo parent fuel (parent.getD root 0)

/-- The second loop of UnionFind::find (path compression):
`while p != root { next = parent[p]; parent[p] = root; p = next }`; the next
pointer is read before the link is overwritten, as in the source. -/
def compressGo (parent : List Nat) : Nat → Nat → Nat → List Nat
  | 0, _, _ => parent
  | fuel + 1, p, root =>
    if p ≠ root then compressGo (parent.set p root) fuel (parent.getD p 0) root
    else parent

/-- UnionFind::find: locate the root, then compress the traversed path. -/
def find (uf : UnionFind) (p : Nat) : UnionFind × Nat :=
  let root := rootGo uf.parent uf.parent.length p
  ⟨⟨compressGo uf.parent uf.parent.length p root, uf.size, uf.count⟩, root⟩

/-- UnionFind::union with union-by-size. -/
def union (uf : UnionFind) (p q : Nat) : UnionFind × Bool :=
  let f1 := find uf p
  let root_p := f1.2
  let f2 := find f1.1 q
  let uf2 := f2.1
  let root_q := f2.2
  if root_p = root_q then (uf2, false)
  else if uf2.size.getD root_p 0 < uf2.size.getD root_q 0 then
    (⟨uf2.parent.set root_p root_q,
      uf2.size.set root_q (uf2.size.getD root_q 0 + uf2.size.getD root_p 0),
      uf2.count - 1⟩, true)
  else
    (⟨uf2.parent.set root_q root_p,
      uf2.size.set root_p (uf2.size.getD root_p 0 + uf2.size.getD root_q 0),
      uf2.count - 1⟩, true)

/-- UnionFind::connected: `find(p) == find(q)` (both finds mutate the state). -/
def connected (uf : UnionFind) (p q : Nat) : UnionFind × Bool :=
  let f1 := find uf p
  let f2 := find f1.1 q
  (f2.1, decide (f1.2 = f2.2))

/-- The number of distinct roots of the parent forest. -/
def nRoots (parent : List Nat) : Nat :=
  ((Finset.range parent.length).filter (fun x => parent.getD x 0 = x)).card

/-- Reachable union-find states: links stay in range, every chain reaches a
root, and the count field counts the roots. -/
def Inv (uf : UnionFind) : Prop :=
  (∀ x, x < uf.parent.length → uf.parent.getD x 0 < uf.parent.length) ∧
  (∀ x, x < uf.parent.length → ∃ j, IsRoot uf.parent (iterP uf.parent j x)) ∧
  uf.count = nRoots uf.parent

/-- The root of x as the source's find computes it (without the compression). -/
def rootD (uf : UnionFind) (x : Nat) : Nat := rootGo uf.parent uf.parent.length x

theorem iterP_add (parent : List Nat) (a b x : Nat) :
    iterP parent (a + b) x = iterP parent b (iterP parent a x) := by
  induction a generalizing x with
  | zero => simp [iterP]
  | succ a ih =>
    have : a + 1 + b = (a + b) + 1 := by omega
    rw [this, iterP, iterP, ih]

theorem iterP_closed {parent : List Nat} (hcl : ∀ x, x < parent.length →
    parent.getD x 0 < parent.length) {x : Nat} (hx : x < parent.length) (k : Nat) :
    iterP parent k x < parent.length := by
  induction k generalizing x with
  | zero => exact hx
  | succ k ih => exact ih (hcl x hx)

theorem iterP_root {parent : List Nat} {r : Nat} (hr : IsRoot parent r) (k : Nat) :
    iterP parent k r = r := by
  induction k with
  | zero => rfl
  | succ k ih => rw [iterP, hr, ih]

/-- rootGo lands on any root sitting on the chain within fuel reach. -/
theorem rootGo_eq {parent : List Nat} {x j fuel : Nat}
    (hroot : IsRoot parent (iterP parent j x)) (hj : j ≤ fuel) :
    rootGo parent fuel x = iterP parent j x := by
  induction fuel generalizing x j with
  | zero =>
    have : j = 0 := by omega
    subst this
    rfl
  | succ fuel ih =>
    rw [rootGo]
    by_cases hx : parent.getD x 0 = x
    · rw [if_pos hx]
      rw [iterP_root hx j]
    · rw [if_neg hx]
      cases j with
      | zero =>
        exact absurd hroot hx
      | succ j =>
        rw [iterP] at hroot
        rw [iterP]
        exact ih hroot (by omega)

theorem roots_unique {parent : List Nat} {x j1 j2 : Nat}
    (h1 : IsRoot parent (iterP parent j1 x)) (h2 : IsRoot parent (iterP parent j2 x)) :
    iterP parent j1 x = iterP parent j2 x := by
  rcases Nat.le_total j1 j2 with h | h
  · have : j2 = j1 + (j2 - j1) := by omega
    rw [this, iterP_add, iterP_root h1]
  · have : j1 = j2 + (j1 - j2) := by omega
    rw [this, iterP_add, iterP_root h2]

theorem iterP_cycle {parent : List Nat} {y d : Nat} (hd : 0 < d)
    (hcyc : iterP parent d y = y) (m : Nat) :
    iterP parent m y = iterP parent (m % d) y := by
  induction m using Nat.strong_induction_on with
  | _ m ih =>
    by_cases hm : m < d
    · rw [Nat.mod_eq_of_lt hm]
    · have hsplit : m = d + (m - d) := by omega
      have h1 : iterP parent m y = iterP parent (m - d) y := by
        conv_lhs => rw [hsplit]
        rw [iterP_add, hcyc]
      rw [h1, ih (m - d) (by omega), Nat.mod_eq_sub_mod (show d ≤ m by omega)]

/-- Pigeonhole: in a closed parent forest a chain that reaches a root does so
within `parent.length` steps. -/
theorem reach_bounded {parent : List Nat}
    (hcl : ∀ x, x < parent.length → parent.getD x 0 < parent.length)
    {x : Nat} (hx : x < parent.length)
    (hreach : ∃ j, IsRoot parent (iterP parent j x)) :
    ∃ j, j < parent.length ∧ IsRoot parent (iterP parent j x) := by
  classical
  set n := parent.length with hn
  have hn0 : 0 < n := by omega
  set j0 := Nat.find hreach with hj0
  have hj0root : IsRoot parent (iterP parent j0 x) := Nat.find_spec hreach
  by_cases hlt : j0 < n
  · exact ⟨j0, hlt, hj0root⟩
  · exfalso
    have hmaps : ∀ a ∈ Finset.range (n + 1), iterP parent a x ∈ Finset.range n := by
      intro a _
      rw [Finset.mem_range]
      exact iterP_closed hcl hx a
    obtain ⟨a, ha, b, hb, hab, heq⟩ :=
      Finset.exists_ne_map_eq_of_card_lt_of_maps_to
        (by simp : (Finset.range n).card < (Finset.range (n + 1)).card) hmaps
    rw [Finset.mem_range] at ha hb
    rcases Nat.lt_or_ge a b with hab2 | hab2
    case _ =>
      have hd : 0 < b - a := by omega
      have hcyc : iterP parent (b - a) (iterP parent a x) = iterP parent a x := by
        rw [← iterP_add]
        have : a + (b - a) = b := by omega
        rw [this, heq]
      have hm : j0 - a + a = j0 := by omega
      have h1 : iterP parent j0 x = iterP parent ((j0 - a) % (b - a)) (iterP parent a x) := by
        conv_lhs => rw [← hm]
        rw [Nat.add_comm, iterP_add, iterP_cycle hd hcyc]
      have h2 : iterP parent ((j0 - a) % (b - a)) (iterP parent a x)
          = iterP parent (a + (j0 - a) % (b - a)) x := by
        rw [iterP_add]
      have hsmall : a + (j0 - a) % (b - a) < j0 := by
        have := Nat.mod_lt (j0 - a) hd
        omega
      have : IsRoot parent (iterP parent (a + (j0 - a) % (b - a)) x) := by
        rw [← h2, ← h1]
        exact hj0root
      exact Nat.find_min hreach hsmall this
    case _ =>
      have hab3 : b < a := by omega
      have hd : 0 < a - b := by omega
      have hcyc : iterP parent (a - b) (iterP parent b x) = iterP parent b x := by
        rw [← iterP_add]
        have : b + (a - b) = a := by omega
        rw [this, ← heq]
      have hm : j0 - b + b = j0 := by omega
      have h1 : iterP parent j0 x = iterP parent ((j0 - b) % (a - b)) (iterP parent b x) := by
        conv_lhs => rw [← hm]
        rw [Nat.add_comm, iterP_add, iterP_cycle hd hcyc]
      have h2 : iterP parent ((j0 - b) % (a - b)) (iterP parent b x)
          = iterP parent (b + (j0 - b) % (a - b)) x := by
        rw [iterP_add]
      have hsmall : b + (j0 - b) % (a - b) < j0 := by
        have := Nat.mod_lt (j0 - b) hd
        omega
      have : IsRoot parent (iterP parent (b + (j0 - b) % (a - b)) x) := by
        rw [← h2, ← h1]
        exact hj0root
      exact Nat.find_min hreach hsmall this

/-- x reaches the root r along its parent chain. -/
def RootOf (parent : List Nat) (x r : Nat) : Prop :=
  ∃ j, iterP parent j x = r ∧ IsRoot parent r

theorem rootOf_unique {parent : List Nat} {x r1 r2 : Nat}
    (h1 : RootOf parent x r1) (h2 : RootOf parent x r2) : r1 = r2 := by
  obtain ⟨j1, he1, hr1⟩ := h1
  obtain ⟨j2, he2, hr2⟩ := h2
  rw [← he1, ← he2]
  exact roots_unique (he1 ▸ hr1) (he2 ▸ hr2)

theorem rootOf_of_isRoot {parent : List Nat} {r : Nat} (h : IsRoot parent r) :
    RootOf parent r r := ⟨0, rfl, h⟩

theorem rootOf_step {parent : List Nat} {x r : Nat} (hx : ¬ IsRoot parent x)
    (h : RootOf parent (parent.getD x 0) r) : RootOf parent x r := by
  obtain ⟨j, he, hr⟩ := h
  exact ⟨j + 1, by rw [iterP]; exact he, hr⟩

theorem rootOf_destep {parent : List Nat} {x r : Nat} (hx : ¬ IsRoot parent x)
    (h : RootOf parent x r) : RootOf parent (parent.getD x 0) r := by
  obtain ⟨j, he, hr⟩ := h
  cases j with
  | zero =>
    have hxr : x = r := he
    refine absurd ?_ hx
    show parent.getD x 0 = x
    rw [hxr]
    exact hr
  | succ j =>
    rw [iterP] at he
    exact ⟨j, he, hr⟩

/-- Under the invariant, rootD computes the root of x's chain. -/
theorem rootD_rootOf {uf : UnionFind} (hInv : Inv uf) {x : Nat}
    (hx : x < uf.parent.length) : RootOf uf.parent x (rootD uf x) := by
  obtain ⟨hcl, hreach, _⟩ := hInv
  obtain ⟨j, hj, hroot⟩ := reach_bounded hcl hx (hreach x hx)
  have := rootGo_eq hroot (by omega : j ≤ uf.parent.length)
  exact ⟨j, by rw [rootD, this], by rw [rootD, this]; exact hroot⟩

theorem rootD_eq_of_rootOf {uf : UnionFind} (hInv : Inv uf) {x r : Nat}
    (hx : x < uf.parent.length) (h : RootOf uf.parent x r) : rootD uf x = r :=
  rootOf_unique (rootD_rootOf hInv hx) h

/-- Rewriting any set of links to point at their own roots preserves every
chain's root. -/
theorem rootOf_transfer {parent parent2 : List Nat}
    (hcl : ∀ x, x < parent.length → parent.getD x 0 < parent.length)
    (hch : ∀ z, z < parent.length →
      parent2.getD z 0 = parent.getD z 0 ∨ RootOf parent z (parent2.getD z 0)) :
    ∀ j x r, x < parent.length → iterP parent j x = r → IsRoot parent r →
      RootOf parent2 x r := by
  intro j
  induction j using Nat.strong_induction_on with
  | _ j ih =>
    intro x r hx he hr
    by_cases hxroot : IsRoot parent x
    · have hxr : r = x := by rw [← he, iterP_root hxroot]
      subst hxr
      have hroot2 : IsRoot parent2 r := by
        rcases hch r hx with hsame | hrootof
        · show parent2.getD r 0 = r
          rw [hsame]
          exact hxroot
        · show parent2.getD r 0 = r
          exact rootOf_unique hrootof (rootOf_of_isRoot hxroot)
      exact rootOf_of_isRoot hroot2
    · cases j with
      | zero =>
        exact absurd ((show x = r from he).symm ▸ hr) hxroot
      | succ j =>
        rw [iterP] at he
        rcases hch x hx with hsame | hrootof
        · have hnext := ih j (by omega) (parent.getD x 0) r (hcl x hx) he hr
          apply @rootOf_step parent2 x r
          · show ¬ parent2.getD x 0 = x
            rw [hsame]
            exact hxroot
          · rw [hsame]
            exact hnext
        · have hxr : RootOf parent x r := ⟨j + 1, by rw [iterP]; exact he, hr⟩
          have hval : parent2.getD x 0 = r := rootOf_unique hrootof hxr
          have hrlt : r < parent.length := by
            rw [← he]
            exact iterP_closed hcl (hcl x hx) j
          have hroot2 : IsRoot parent2 r := by
            rcases hch r hrlt with hsame2 | hrootof2
            · show parent2.getD r 0 = r
              rw [hsame2]
              exact hr
            · show parent2.getD r 0 = r
              exact rootOf_unique hrootof2 (rootOf_of_isRoot hr)
          exact ⟨1, by rw [iterP, hval]; exact iterP_root hroot2 0, hroot2⟩

/-- The compression loop only rewrites links to point at the root of their own
chain (stated against the original parent array `orig`). -/
theorem compressGo_ch (orig : List Nat)
    (hclo : ∀ x, x < orig.length → orig.getD x 0 < orig.length) :
    ∀ fuel parent p root,
    parent.length = orig.length →
    (∀ z, z < orig.length →
      parent.getD z 0 = orig.getD z 0 ∨ RootOf orig z (parent.getD z 0)) →
    p < orig.length → RootOf orig p root →
    (compressGo parent fuel p root).length = orig.length ∧
    ∀ z, z < orig.length →
      (compressGo parent fuel p root).getD z 0 = orig.getD z 0 ∨
        RootOf orig z ((compressGo parent fuel p root).getD z 0) := by
  intro fuel
  induction fuel with
  | zero => exact fun parent p root hlen hch _ _ => ⟨hlen, hch⟩
  | succ fuel ih =>
    intro parent p root hlen hch hp hro
    rw [compressGo]
    by_cases hpr : p ≠ root
    · rw [if_pos hpr]
      have hproot : ¬ IsRoot orig p := by
        intro hcon
        exact hpr (rootOf_unique (rootOf_of_isRoot hcon) hro)
      have hch2 : ∀ z, z < orig.length →
          (parent.set p root).getD z 0 = orig.getD z 0 ∨
            RootOf orig z ((parent.set p root).getD z 0) := by
        intro z hz
        by_cases hzp : z = p
        · subst hzp
          rw [SparseT.getD_set_self (by omega)]
          exact Or.inr hro
        · rw [SparseT.getD_set_ne (fun hcon => hzp hcon.symm)]
          exact hch z hz
      have hnext : RootOf orig (parent.getD p 0) root ∧ parent.getD p 0 < orig.length := by
        rcases hch p hp with hsame | hrootof
        · rw [hsame]
          exact ⟨rootOf_destep hproot hro, hclo p hp⟩
        · have hval := rootOf_unique hrootof hro
          rw [hval]
          obtain ⟨j, hj, hr⟩ := hro
          refine ⟨rootOf_of_isRoot hr, ?_⟩
          rw [← hj]
          exact iterP_closed hclo hp j
      exact ih (parent.set p root) (parent.getD p 0) root
        (by rw [List.length_set]; exact hlen) hch2 hnext.2 hnext.1
    · rw [if_neg hpr]
      exact ⟨hlen, hch⟩

/-- A link rewrite that keeps every node's root-ness keeps the root count. -/
theorem nRoots_congr {parent parent2 : List Nat}
    (hlen : parent2.length = parent.length)
    (hiff : ∀ z, z < parent.length → (parent2.getD z 0 = z ↔ parent.getD z 0 = z)) :
    nRoots parent2 = nRoots parent := by
  rw [nRoots, nRoots, hlen]
  congr 1
  apply Finset.filter_congr
  intro z hz
  rw [Finset.mem_range] at hz
  exact hiff z hz

/-- find(p) compresses the path but preserves lengths, the size array, the
count, the invariant, and every node's root. -/
theorem find_preserves {uf : UnionFind} (hInv : Inv uf) {p : Nat}
    (hp : p < uf.parent.length) :
    ((find uf p).1.parent.length = uf.parent.length) ∧
    ((find uf p).1.count = uf.count) ∧
    ((find uf p).1.size = uf.size) ∧
    Inv (find uf p).1 ∧
    (∀ x, x < uf.parent.length → rootD (find uf p).1 x = rootD uf x) ∧
    ((find uf p).2 = rootD uf p) := by
  obtain ⟨hcl, hreach, hcount⟩ := hInv
  have hro : RootOf uf.parent p (rootD uf p) := rootD_rootOf ⟨hcl, hreach, hcount⟩ hp
  have hch0 : ∀ z, z < uf.parent.length →
      uf.parent.getD z 0 = uf.parent.getD z 0 ∨ RootOf uf.parent z (uf.parent.getD z 0) :=
    fun z _ => Or.inl rfl
  obtain ⟨hlen2, hch⟩ := compressGo_ch uf.parent hcl uf.parent.length uf.parent p
    (rootD uf p) rfl hch0 hp hro
  set parent2 := compressGo uf.parent uf.parent.length p (rootD uf p) with hp2
  have hfind : (find uf p).1 = ⟨parent2, uf.size, uf.count⟩ := rfl
  have htrans := rootOf_transfer hcl hch
  have hcl2 : ∀ x, x < parent2.length → parent2.getD x 0 < parent2.length := by
    intro x hx
    rw [hlen2] at hx ⊢
    rcases hch x hx with hsame | hrootof
    · rw [hsame]
      exact hcl x hx
    · obtain ⟨j, hj, hr⟩ := hrootof
      rw [← hj]
      exact iterP_closed hcl hx j
  have hreach2 : ∀ x, x < parent2.length → ∃ j, IsRoot parent2 (iterP parent2 j x) := by
    intro x hx
    rw [hlen2] at hx
    obtain ⟨j0, hj0, hr0⟩ := rootD_rootOf ⟨hcl, hreach, hcount⟩ hx
    obtain ⟨j, he, hr⟩ := htrans j0 x (rootD uf x) hx hj0 hr0
    exact ⟨j, by rw [he]; exact hr⟩
  have hiff : ∀ z, z < uf.parent.length → (parent2.getD z 0 = z ↔ uf.parent.getD z 0 = z) := by
    intro z hz
    constructor
    · intro h2
      rcases hch z hz with hsame | hrootof
      · rw [← hsame]
        exact h2
      · rw [h2] at hrootof
        obtain ⟨j, hj, hr⟩ := hrootof
        exact hr
    · intro h1
      rcases hch z hz with hsame | hrootof
      · rw [hsame]
        exact h1
      · exact rootOf_unique hrootof (rootOf_of_isRoot h1)
  have hInv2 : Inv (find uf p).1 := by
    rw [hfind]
    refine ⟨hcl2, hreach2, ?_⟩
    show uf.count = nRoots parent2
    rw [hcount, nRoots_congr hlen2 hiff]
  refine ⟨hlen2, rfl, rfl, hInv2, ?_, rfl⟩
  intro x hx
  have hrx : RootOf uf.parent x (rootD uf x) := rootD_rootOf ⟨hcl, hreach, hcount⟩ hx
  obtain ⟨j, hj, hr⟩ := hrx
  have h2 : RootOf parent2 x (rootD uf x) := htrans j x (rootD uf x) hx hj hr
  have : rootD (find uf p).1 x = rootD uf x := by
    apply rootD_eq_of_rootOf hInv2
    · rw [hfind]
      show x < parent2.length
      omega
    · rw [hfind]
      exact h2
  exact this

theorem new_parent_getD (n x : Nat) (hx : x < n) : (new n).parent.getD x 0 = x := by
  show (List.range n).getD x 0 = x
  rw [List.getD_eq_getElem _ _ (by simpa using hx)]
  simp

/-- A freshly created structure satisfies the invariant. -/
theorem inv_new (n : Nat) : Inv (new n) := by
  have hlen : (new n).parent.length = n := by
    show (List.range n).length = n
    simp
  refine ⟨?_, ?_, ?_⟩
  · intro x hx
    rw [hlen] at hx ⊢
    rw [new_parent_getD n x hx]
    exact hx
  · intro x hx
    rw [hlen] at hx
    exact ⟨0, new_parent_getD n x hx⟩
  · show n = nRoots (new n).parent
    rw [nRoots, hlen]
    rw [Finset.filter_true_of_mem (fun x hx => new_parent_getD n x (Finset.mem_range.mp hx))]
    simp

/-- The boolean a connected call returns is root equality, and the call leaves
count, lengths and all roots unchanged. -/
theorem connected_val {uf : UnionFind} (hInv : Inv uf) {q r : Nat}
    (hq : q < uf.parent.length) (hr : r < uf.parent.length) :
    (connected uf q r).2 = decide (rootD uf q = rootD uf r) ∧
    Inv (connected uf q r).1 ∧
    (connected uf q r).1.count = uf.count ∧
    (connected uf q r).1.parent.length = uf.parent.length ∧
    (∀ x, x < uf.parent.length → rootD (connected uf q r).1 x = rootD uf x) := by
  obtain ⟨hlen1, hcnt1, hsz1, hInv1, hroots1, hval1⟩ := find_preserves hInv hq
  have hr1 : r < (find uf q).1.parent.length := by rw [hlen1]; exact hr
  obtain ⟨hlen2, hcnt2, hsz2, hInv2, hroots2, hval2⟩ := find_preserves hInv1 hr1
  have hcv : (connected uf q r).2
      = decide ((find uf q).2 = (find (find uf q).1 r).2) := rfl
  have hcs : (connected uf q r).1 = (find (find uf q).1 r).1 := rfl
  refine ⟨?_, ?_, ?_, ?_, ?_⟩
  · rw [hcv, hval1, hval2, hroots1 r hr]
  · rw [hcs]; exact hInv2
  · rw [hcs, hcnt2, hcnt1]
  · rw [hcs, hlen2, hlen1]
  · intro x hx
    rw [hcs, hroots2 x (by rw [hlen1]; exact hx), hroots1 x hx]

/-- C9: find(p) (and likewise connected) never changes the observable
partition: count and every connected(q, r) answer are unchanged, although
path compression rewrites traversed parent links. -/
theorem uf_find_frame (uf : UnionFind) (hInv : Inv uf) (p : Nat)
    (hp : p < uf.parent.length) :
    ((find uf p).1.count = uf.count ∧
      ∀ q r, q < uf.parent.length → r < uf.parent.length →
        (connected (find uf p).1 q r).2 = (connected uf q r).2) ∧
    (∀ p2, p2 < uf.parent.length →
      (connected uf p p2).1.count = uf.count ∧
      ∀ q r, q < uf.parent.length → r < uf.parent.length →
        (connected (connected uf p p2).1 q r).2 = (connected uf q r).2) := by
  obtain ⟨hlen1, hcnt1, hsz1, hInv1, hroots1, hval1⟩ := find_preserves hInv hp
  constructor
  · refine ⟨hcnt1, ?_⟩
    intro q r hq hr
    obtain ⟨hval, _, _, _, _⟩ :=
      @connected_val _ hInv1 q r (by omega) (by omega)
    rw [hval, hroots1 q hq, hroots1 r hr,
      (connected_val hInv hq hr).1]
  · intro p2 hp2
    obtain ⟨hcv, hInvc, hcntc, hlenc, hrootsc⟩ := connected_val hInv hp hp2
    refine ⟨hcntc, ?_⟩
    intro q r hq hr
    obtain ⟨hval, _, _, _, _⟩ :=
      @connected_val _ hInvc q r (by omega) (by omega)
    rw [hval, hrootsc q hq, hrootsc r hr, (connected_val hInv hq hr).1]

/-- Witness for C9 on UnionFind::new(3) with p = 0. -/
theorem uf_find_frame_witness :
    ((find (new 3) 0).1.count = (new 3).count ∧
      ∀ q r, q < (new 3).parent.length → r < (new 3).parent.length →
        (connected (find (new 3) 0).1 q r).2 = (connected (new 3) q r).2) ∧
    (∀ p2, p2 < (new 3).parent.length →
      (connected (new 3) 0 p2).1.count = (new 3).count ∧
      ∀ q r, q < (new 3).parent.length → r < (new 3).parent.length →
        (connected (connected (new 3) 0 p2).1 q r).2 = (connected (new 3) q r).2) :=
  uf_find_frame (new 3) (inv_new 3) 0 (by decide)

/-- C6: union(p, q) returns true and decreases count by exactly one when p and
q had different roots, and returns false leaving count unchanged when they
already shared a root. -/
theorem uf_union_count_spec (uf : UnionFind) (hInv : Inv uf) (p q : Nat)
    (hp : p < uf.parent.length) (hq : q < uf.parent.length) :
    ((union uf p q).2 = true ∧ (union uf p q).1.count + 1 = uf.count
      ↔ rootD uf p ≠ rootD uf q) ∧
    ((union uf p q).2 = false ∧ (union uf p q).1.count = uf.count
      ↔ rootD uf p = rootD uf q) := by
  obtain ⟨hlen1, hcnt1, hsz1, hInv1, hroots1, hval1⟩ := find_preserves hInv hp
  have hq1 : q < (find uf p).1.parent.length := by rw [hlen1]; exact hq
  obtain ⟨hlen2, hcnt2, hsz2, hInv2, hroots2, hval2⟩ := find_preserves hInv1 hq1
  set uf1 := (find uf p).1 with huf1
  set uf2 := (find uf1 q).1 with huf2
  have hu : union uf p q =
      (if (find uf p).2 = (find uf1 q).2 then (uf2, false)
       else if uf2.size.getD (find uf p).2 0 < uf2.size.getD (find uf1 q).2 0 then
        (⟨uf2.parent.set (find uf p).2 ((find uf1 q).2),
          uf2.size.set (find uf1 q).2
            (uf2.size.getD (find uf1 q).2 0 + uf2.size.getD (find uf p).2 0),
          uf2.count - 1⟩, true)
       else
        (⟨uf2.parent.set (find uf1 q).2 ((find uf p).2),
          uf2.size.set (find uf p).2
            (uf2.size.getD (find uf p).2 0 + uf2.size.getD (find uf1 q).2 0),
          uf2.count - 1⟩, true)) := rfl
  have hvq : (find uf1 q).2 = rootD uf q := by rw [hval2, hroots1 q hq]
  rw [hval1, hvq] at hu
  have hc2 : uf2.count = uf.count := by rw [hcnt2, hcnt1]
  by_cases hrpq : rootD uf p = rootD uf q
  · rw [if_pos hrpq] at hu
    rw [hu]
    simp [hc2, hrpq]
  · rw [if_neg hrpq] at hu
    have hcnt_ge : 2 ≤ uf2.count := by
      have hplen2 : p < uf2.parent.length := by rw [hlen2, hlen1]; exact hp
      have hqlen2 : q < uf2.parent.length := by rw [hlen2, hlen1]; exact hq
      have hrp2 : rootD uf2 p = rootD uf p := by
        rw [hroots2 p (by rw [hlen1]; exact hp), hroots1 p hp]
      have hrq2 : rootD uf2 q = rootD uf q := by
        rw [hroots2 q (by rw [hlen1]; exact hq), hroots1 q hq]
      obtain ⟨jp, hjp, hrootp⟩ := rootD_rootOf hInv2 hplen2
      obtain ⟨jq, hjq, hrootq⟩ := rootD_rootOf hInv2 hqlen2
      have hplt : rootD uf2 p < uf2.parent.length := by
        rw [← hjp]
        exact iterP_closed hInv2.1 hplen2 jp
      have hqlt : rootD uf2 q < uf2.parent.length := by
        rw [← hjq]
        exact iterP_closed hInv2.1 hqlen2 jq
      have hsub : ({rootD uf2 p, rootD uf2 q} : Finset Nat) ⊆
          (Finset.range uf2.parent.length).filter (fun x => uf2.parent.getD x 0 = x) := by
        intro z hz
        rw [Finset.mem_insert, Finset.mem_singleton] at hz
        rw [Finset.mem_filter, Finset.mem_range]
        rcases hz with hz | hz <;> subst hz
        · exact ⟨hplt, hrootp⟩
        · exact ⟨hqlt, hrootq⟩
      have hne2 : rootD uf2 p ≠ rootD uf2 q := by
        rw [hrp2, hrq2]
        exact hrpq
      have hcard : ({rootD uf2 p, rootD uf2 q} : Finset Nat).card = 2 :=
        Finset.card_pair hne2
      have hle := Finset.card_le_card hsub
      rw [hcard] at hle
      have := hInv2.2.2
      rw [this, nRoots]
      exact hle
    by_cases hsz : uf2.size.getD (rootD uf p) 0 < uf2.size.getD (rootD uf q) 0
    · rw [if_pos hsz] at hu
      rw [hu]
      simp only []
      constructor
      · simp only [true_and]
        constructor
        · intro _
          exact hrpq
        · intro _
          show uf2.count - 1 + 1 = uf.count
          omega
      · simp [hrpq]
    · rw [if_neg hsz] at hu
      rw [hu]
      constructor
      · simp only [true_and]
        constructor
        · intro _
          exact hrpq
        · intro _
          show uf2.count - 1 + 1 = uf.count
          omega
      · simp [hrpq]

/-- Witness for C6: in UnionFind::new(2), 0 and 1 start in different sets. -/
theorem uf_union_count_spec_witness :
    ((union (new 2) 0 1).2 = true ∧ (union (new 2) 0 1).1.count + 1 = (new 2).count
      ↔ rootD (new 2) 0 ≠ rootD (new 2) 1) ∧
    ((union (new 2) 0 1).2 = false ∧ (union (new 2) 0 1).1.count = (new 2).count
      ↔ rootD (new 2) 0 = rootD (new 2) 1) :=
  uf_union_count_spec (new 2) (inv_new 2) 0 1 (by decide) (by decide)

end UF

namespace Treap

/-- A treap node (Option<Box<Node>> and Node merged into one inductive; leaf is
None). Fields follow the Rust struct: key, priority, left, right, size, count.
The random priority drawn by Node::new is modelled as an explicit argument to
insert, so every theorem quantifies over all priority sequences. -/
inductive TNode where
  | leaf : TNode
  | node (key : Int) (priority : Nat) (left : TNode) (right : TNode)
      (size : Nat) (count : Nat) : TNode

open TNode

/-- `.map(|n| n.size).unwrap_or(0)`. -/
def size : TNode → Nat
  | leaf => 0
  | node _ _ _ _ s _ => s

/-- `.map(|n| n.priority).unwrap_or(0)`. -/
def prio : TNode → Nat
  | leaf => 0
  | node _ p _ _ _ _ => p

/-- Treap::rotate_right, with recalc applied to both moved nodes as in the
source; the left child is Some in every reachable call (the source unwraps
with expect), so the fallback branch returning the input is unreachable. -/
def rotate_right : TNode → TNode
  | node k p (node xk xp xl xr _ xc) r _ c =>
    node xk xp xl (node k p xr r (size xr + c + size r) c)
      (size xl + xc + (size xr + c + size r)) xc
  | t => t

/-- Treap::rotate_left (mirror image). -/
def rotate_left : TNode → TNode
  | node k p l (node yk yp yl yr _ yc) _ c =>
    node yk yp (node k p l yl (size l + c + size yl) c) yr
      ((size l + c + size yl) + yc + size yr) yc
  | t => t

/-- Treap::insert_rec; `prNew` is the priority Node::new would draw. -/
def insert_rec (t : TNode) (key : Int) (prNew : Nat) : TNode :=
  match t with
  | leaf => node key prNew leaf leaf 1 1
  | node k p l r s c =>
    if key = k then node k p l r (size l + (c + 1) + size r) (c + 1)
    else if key < k then
      let l2 := insert_rec l key prNew
      if prio l2 > p then rotate_right (node k p l2 r s c)
      else node k p l2 r (size l2 + c + size r) c
    else
      let r2 := insert_rec r key prNew
      if prio r2 > p then rotate_left (node k p l r2 s c)
      else node k p l r2 (size l + c + size r2) c

/-- Treap::merge. -/
def merge : TNode → TNode → TNode
  | leaf, b => b
  | a, leaf => a
  | node ak ap al ar as2 ac, node bk bp bl br bs bc =>
    if ap > bp then
      let nr := merge ar (node bk bp bl br bs bc)
      node ak ap al nr (size al + ac + size nr) ac
    else
      let nl := merge (node ak ap al ar as2 ac) bl
      node bk bp nl br (size nl + bc + size br) bc

/-- Treap::remove_rec. -/
def remove_rec (t : TNode) (key : Int) : TNode :=
  match t with
  | leaf => leaf
  | node k p l r _ c =>
    if key < k then
      let l2 := remove_rec l key
      node k p l2 r (size l2 + c + size r) c
    else if key > k then
      let r2 := remove_rec r key
      node k p l r2 (size l + c + size r2) c
    else if c > 1 then node k p l r (size l + (c - 1) + size r) (c - 1)
    else merge l r

/-- Treap::contains (the iterative descent written recursively). -/
def contains (t : TNode) (key : Int) : Bool :=
  match t with
  | leaf => false
  | node k _ l r _ _ =>
    if key < k then contains l key
    else if key > k then contains r key
    else true

/-- Treap::inorder_vec (each key pushed count times). -/
def inorder : TNode → List Int
  | leaf => []
  | node k _ l r _ c => inorder l ++ List.replicate c k ++ inorder r

/-- One user-level operation: insert (with the priority the RNG would draw) or
remove. -/
inductive TOp where
  | ins (k : Int) (prNew : Nat) : TOp
  | del (k : Int) : TOp

def applyOp (t : TNode) (op : TOp) : TNode :=
  match op with
  | .ins k prNew => insert_rec t k prNew
  | .del k => remove_rec t k

/-- Running a sequence of operations from the empty treap. -/
def run (ops : List TOp) : TNode := ops.foldl applyOp leaf

/-- Multiplicity bookkeeping: an insert of k adds one occurrence, a remove of k
deletes one if any is present (Nat subtraction truncates at zero, which matches
a removal of an absent key being a no-op). -/
def multStep (x : Int) (m : Nat) (op : TOp) : Nat :=
  match op with
  | .ins k _ => if k = x then m + 1 else m
  | .del k => if k = x then m - 1 else m

def mult (ops : List TOp) (x : Int) : Nat := ops.foldl (multStep x) 0

theorem rotate_right_inorder (t : TNode) : inorder (rotate_right t) = inorder t := by
  match t with
  | leaf => rfl
  | node k p leaf r s c => rfl
  | node k p (node xk xp xl xr xs xc) r s c =>
    show inorder xl ++ List.replicate xc xk ++ (inorder xr ++ List.replicate c k ++ inorder r)
      = (inorder xl ++ List.replicate xc xk ++ inorder xr) ++ List.replicate c k ++ inorder r
    simp [List.append_assoc]

theorem rotate_left_inorder (t : TNode) : inorder (rotate_left t) = inorder t := by
  match t with
  | leaf => rfl
  | node k p l leaf s c => rfl
  | node k p l (node yk yp yl yr ys yc) s c =>
    show (inorder l ++ List.replicate c k ++ inorder yl) ++ List.replicate yc yk ++ inorder yr
      = inorder l ++ List.replicate c k ++ (inorder yl ++ List.replicate yc yk ++ inorder yr)
    simp [List.append_assoc]

theorem merge_inorder (a b : TNode) : inorder (merge a b) = inorder a ++ inorder b := by
  match a, b with
  | leaf, b => simp [merge, inorder]
  | node ak ap al ar as2 ac, leaf => simp [merge, inorder]
  | node ak ap al ar as2 ac, node bk bp bl br bs bc =>
    rw [merge]
    by_cases hp : ap > bp
    · rw [if_pos hp]
      show inorder al ++ List.replicate ac ak ++ inorder (merge ar (node bk bp bl br bs bc)) = _
      rw [merge_inorder ar (node bk bp bl br bs bc)]
      simp [inorder, List.append_assoc]
    · rw [if_neg hp]
      show inorder (merge (node ak ap al ar as2 ac) bl) ++ List.replicate bc bk ++ inorder br = _
      rw [merge_inorder (node ak ap al ar as2 ac) bl]
      simp [inorder, List.append_assoc]

/-- The binary-search-tree invariant (with positive multiplicities). -/
def BST : TNode → Prop
  | leaf => True
  | node k _ l r _ c =>
    BST l ∧ BST r ∧ (∀ x ∈ inorder l, x < k) ∧ (∀ x ∈ inorder r, k < x) ∧ 0 < c

theorem key_mem_inorder {k : Int} {p : Nat} {l r : TNode} {s c : Nat} (hc : 0 < c) :
    k ∈ inorder (TNode.node k p l r s c) := by
  rw [inorder]
  refine List.mem_append.mpr (Or.inl (List.mem_append.mpr (Or.inr ?_)))
  exact List.mem_replicate.mpr ⟨by omega, rfl⟩

theorem insert_count (t : TNode) (key : Int) (prNew : Nat) (x : Int) :
    (inorder (insert_rec t key prNew)).count x
      = (inorder t).count x + (if key = x then 1 else 0) := by
  match t with
  | TNode.leaf =>
    rw [insert_rec]
    have hrep : inorder (TNode.node key prNew TNode.leaf TNode.leaf 1 1) = [key] := rfl
    rw [hrep]
    show List.count x [key] = List.count x [] + (if key = x then 1 else 0)
    rw [List.count_singleton, List.count_nil]
    by_cases hkx : key = x <;> simp [hkx]
  | TNode.node k p l r s c =>
    rw [insert_rec]
    by_cases h1 : key = k
    · rw [if_pos h1]
      subst h1
      show ((inorder l ++ List.replicate (c + 1) key ++ inorder r)).count x = _
      rw [inorder]
      simp [List.count_replicate]
      by_cases hkx : key = x
      · subst hkx
        simp
        omega
      · have : ¬ (key == x) = true := by simpa using hkx
        simp [this, hkx]
    · rw [if_neg h1]
      by_cases h2 : key < k
      · rw [if_pos h2]
        have hio : inorder (if prio (insert_rec l key prNew) > p
              then rotate_right (TNode.node k p (insert_rec l key prNew) r s c)
              else TNode.node k p (insert_rec l key prNew) r
                (size (insert_rec l key prNew) + c + size r) c)
            = inorder (insert_rec l key prNew) ++ List.replicate c k ++ inorder r := by
          by_cases hp : prio (insert_rec l key prNew) > p
          · rw [if_pos hp, rotate_right_inorder]
            rfl
          · rw [if_neg hp]
            rfl
        rw [hio, inorder]
        simp only [List.count_append]
        rw [insert_count l key prNew x]
        omega
      · rw [if_neg h2]
        have hio : inorder (if prio (insert_rec r key prNew) > p
              then rotate_left (TNode.node k p l (insert_rec r key prNew) s c)
              else TNode.node k p l (insert_rec r key prNew)
                (size l + c + size (insert_rec r key prNew)) c)
            = inorder l ++ List.replicate c k ++ inorder (insert_rec r key prNew) := by
          by_cases hp : prio (insert_rec r key prNew) > p
          · rw [if_pos hp, rotate_left_inorder]
            rfl
          · rw [if_neg hp]
            rfl
        rw [hio, inorder]
        simp only [List.count_append]
        rw [insert_count r key prNew x]
        omega

theorem mem_insert_iff {t : TNode} {key : Int} {prNew : Nat} {x : Int} :
    x ∈ inorder (insert_rec t key prNew) ↔ x ∈ inorder t ∨ x = key := by
  rw [← List.count_pos_iff, ← List.count_pos_iff, insert_count]
  by_cases hkx : key = x
  · simp [hkx]
  · have : ¬ x = key := fun hcon => hkx hcon.symm
    simp [hkx, this]

theorem bst_rotate_right {t : TNode} (h : BST t) : BST (rotate_right t) := by
  match t with
  | TNode.leaf => exact h
  | TNode.node k p TNode.leaf r s c => exact h
  | TNode.node k p (TNode.node xk xp xl xr xs xc) r s c =>
    obtain ⟨⟨bxl, bxr, hxlk, hxrk, hxc⟩, br, hlk, hrk, hc⟩ := h
    have hxkk : xk < k := hlk xk (key_mem_inorder hxc)
    refine ⟨bxl, ⟨bxr, br, ?_, ?_, hc⟩, hxlk, ?_, hxc⟩
    · intro y hy
      apply hlk
      rw [inorder]
      simp only [List.mem_append]
      exact Or.inr hy
    · exact hrk
    · intro y hy
      rw [inorder] at hy
      simp only [List.mem_append] at hy
      rcases hy with (hy | hy) | hy
      · exact hxrk y hy
      · rw [List.eq_of_mem_replicate hy]
        exact hxkk
      · exact lt_trans hxkk (hrk y hy)

theorem bst_rotate_left {t : TNode} (h : BST t) : BST (rotate_left t) := by
  match t with
  | TNode.leaf => exact h
  | TNode.node k p l TNode.leaf s c => exact h
  | TNode.node k p l (TNode.node yk yp yl yr ys yc) s c =>
    obtain ⟨bl, ⟨byl, byr, hylk, hyrk, hyc⟩, hlk, hrk, hc⟩ := h
    have hkyk : k < yk := hrk yk (key_mem_inorder hyc)
    refine ⟨⟨bl, byl, hlk, ?_, hc⟩, byr, ?_, hyrk, hyc⟩
    · intro y hy
      apply hrk
      rw [inorder]
      simp only [List.mem_append]
      exact Or.inl (Or.inl hy)
    · intro y hy
      rw [inorder] at hy
      simp only [List.mem_append] at hy
      rcases hy with (hy | hy) | hy
      · exact lt_trans (hlk y hy) hkyk
      · rw [List.eq_of_mem_replicate hy]
        exact hkyk
      · exact hylk y hy

theorem bst_insert {t : TNode} (key : Int) (prNew : Nat) (h : BST t) :
    BST (insert_rec t key prNew) := by
  match t with
  | TNode.leaf =>
    rw [insert_rec]
    exact ⟨trivial, trivial, by simp [inorder], by simp [inorder], by omega⟩
  | TNode.node k p l r s c =>
    obtain ⟨bl, br, hlk, hrk, hc⟩ := h
    rw [insert_rec]
    by_cases h1 : key = k
    · rw [if_pos h1]
      exact ⟨bl, br, hlk, hrk, by omega⟩
    · rw [if_neg h1]
      by_cases h2 : key < k
      · rw [if_pos h2]
        have bl2 : BST (insert_rec l key prNew) := bst_insert key prNew bl
        have hbound : ∀ x ∈ inorder (insert_rec l key prNew), x < k := by
          intro x hx
          rcases mem_insert_iff.mp hx with hx | hx
          · exact hlk x hx
          · rw [hx]; exact h2
        by_cases hp : prio (insert_rec l key prNew) > p
        · rw [if_pos hp]
          exact bst_rotate_right ⟨bl2, br, hbound, hrk, hc⟩
        · rw [if_neg hp]
          exact ⟨bl2, br, hbound, hrk, hc⟩
      · rw [if_neg h2]
        have br2 : BST (insert_rec r key prNew) := bst_insert key prNew br
        have hbound : ∀ x ∈ inorder (insert_rec r key prNew), k < x := by
          intro x hx
          rcases mem_insert_iff.mp hx with hx | hx
          · exact hrk x hx
          · rw [hx]; omega
        by_cases hp : prio (insert_rec r key prNew) > p
        · rw [if_pos hp]
          exact bst_rotate_left ⟨bl, br2, hlk, hbound, hc⟩
        · rw [if_neg hp]
          exact ⟨bl, br2, hlk, hbound, hc⟩

theorem mem_merge_iff {a b : TNode} {x : Int} :
    x ∈ inorder (merge a b) ↔ x ∈ inorder a ∨ x ∈ inorder b := by
  rw [merge_inorder, List.mem_append]

theorem bst_merge (a b : TNode) (ha : BST a) (hb : BST b)
    (hab : ∀ x ∈ inorder a, ∀ y ∈ inorder b, x < y) : BST (merge a b) := by
  match a, b with
  | TNode.leaf, b =>
    rw [merge]
    exact hb
  | TNode.node ak ap al ar as2 ac, TNode.leaf =>
    have he : merge (TNode.node ak ap al ar as2 ac) TNode.leaf
        = TNode.node ak ap al ar as2 ac := by
      rw [merge]
      exact fun h => TNode.noConfusion h
    rw [he]
    exact ha
  | TNode.node ak ap al ar as2 ac, TNode.node bk bp bl br bs bc =>
    obtain ⟨bal, bar, halk, hark, hac⟩ := ha
    obtain ⟨bbl, bbr, hblk, hbrk, hbc⟩ := hb
    rw [merge]
    by_cases hp : ap > bp
    · rw [if_pos hp]
      refine ⟨bal, ?_, halk, ?_, hac⟩
      · apply bst_merge ar (TNode.node bk bp bl br bs bc) bar
          ⟨bbl, bbr, hblk, hbrk, hbc⟩
        intro x hx y hy
        apply hab
        · rw [inorder]
          simp only [List.mem_append]
          exact Or.inr hx
        · exact hy
      · intro y hy
        rcases mem_merge_iff.mp hy with hy | hy
        · exact hark y hy
        · exact hab ak (key_mem_inorder hac) y hy
    · rw [if_neg hp]
      refine ⟨?_, bbr, ?_, hbrk, hbc⟩
      · apply bst_merge (TNode.node ak ap al ar as2 ac) bl
          ⟨bal, bar, halk, hark, hac⟩ bbl
        intro x hx y hy
        apply hab x hx
        rw [inorder]
        simp only [List.mem_append]
        exact Or.inl (Or.inl hy)
      · intro y hy
        rcases mem_merge_iff.mp hy with hy | hy
        · exact hab y hy bk (key_mem_inorder hbc)
        · exact hblk y hy

theorem count_zero_of_forall_lt {l : List Int} {k : Int}
    (h : ∀ x ∈ l, k < x) : l.count k = 0 := by
  rw [List.count_eq_zero]
  intro hcon
  exact absurd (h k hcon) (lt_irrefl k)

theorem count_zero_of_forall_gt {l : List Int} {k : Int}
    (h : ∀ x ∈ l, x < k) : l.count k = 0 := by
  rw [List.count_eq_zero]
  intro hcon
  exact absurd (h k hcon) (lt_irrefl k)

theorem remove_count (t : TNode) (key : Int) (h : BST t) (x : Int) :
    (inorder (remove_rec t key)).count x
      = (inorder t).count x - (if key = x then 1 else 0) := by
  match t with
  | TNode.leaf =>
    rw [remove_rec]
    simp [inorder]
  | TNode.node k p l r s c =>
    obtain ⟨bl, br, hlk, hrk, hc⟩ := h
    rw [remove_rec]
    by_cases h1 : key < k
    · rw [if_pos h1]
      show (inorder (remove_rec l key) ++ List.replicate c k ++ inorder r).count x = _
      rw [inorder]
      simp only [List.count_append]
      rw [remove_count l key bl x]
      by_cases hkx : key = x
      · subst hkx
        have hr0 : (inorder r).count key = 0 :=
          count_zero_of_forall_lt (fun y hy => lt_trans h1 (hrk y hy))
        have hrep0 : (List.replicate c k).count key = 0 := by
          rw [List.count_replicate]
          simp [show ¬ (k == key) = true by simp; omega]
        rw [hr0, hrep0]
        simp
      · simp [hkx]
    · rw [if_neg h1]
      by_cases h2 : key > k
      · rw [if_pos h2]
        show (inorder l ++ List.replicate c k ++ inorder (remove_rec r key)).count x = _
        rw [inorder]
        simp only [List.count_append]
        rw [remove_count r key br x]
        by_cases hkx : key = x
        · subst hkx
          have hl0 : (inorder l).count key = 0 :=
            count_zero_of_forall_gt (fun y hy => lt_trans (hlk y hy) h2)
          have hrep0 : (List.replicate c k).count key = 0 := by
            rw [List.count_replicate]
            simp [show ¬ (k == key) = true by simp; omega]
          rw [hl0, hrep0]
          simp
        · simp [hkx]
      · rw [if_neg h2]
        have hkeq : key = k := by omega
        subst hkeq
        by_cases h3 : c > 1
        · rw [if_pos h3]
          show (inorder l ++ List.replicate (c - 1) key ++ inorder r).count x = _
          rw [inorder]
          simp only [List.count_append, List.count_replicate]
          by_cases hkx : key = x
          · subst hkx
            simp
            omega
          · have : ¬ (key == x) = true := by simpa using hkx
            simp [this, hkx]
        · rw [if_neg h3]
          have hc1 : c = 1 := by omega
          subst hc1
          rw [merge_inorder, inorder]
          simp only [List.count_append, List.count_replicate]
          by_cases hkx : key = x
          · subst hkx
            simp
          · have : ¬ (key == x) = true := by simpa using hkx
            simp [this, hkx]

theorem mem_remove {t : TNode} {key x : Int} (h : BST t)
    (hx : x ∈ inorder (remove_rec t key)) : x ∈ inorder t := by
  rw [← List.count_pos_iff] at hx ⊢
  rw [remove_count t key h x] at hx
  omega

theorem bst_remove (t : TNode) (key : Int) (h : BST t) : BST (remove_rec t key) := by
  match t with
  | TNode.leaf => exact h
  | TNode.node k p l r s c =>
    obtain ⟨bl, br, hlk, hrk, hc⟩ := h
    rw [remove_rec]
    by_cases h1 : key < k
    · rw [if_pos h1]
      exact ⟨bst_remove l key bl, br, fun y hy => hlk y (mem_remove bl hy), hrk, hc⟩
    · rw [if_neg h1]
      by_cases h2 : key > k
      · rw [if_pos h2]
        exact ⟨bl, bst_remove r key br, hlk, fun y hy => hrk y (mem_remove br hy), hc⟩
      · rw [if_neg h2]
        by_cases h3 : c > 1
        · rw [if_pos h3]
          exact ⟨bl, br, hlk, hrk, by omega⟩
        · rw [if_neg h3]
          exact bst_merge l r bl br
            (fun y hy z hz => lt_trans (hlk y hy) (hrk z hz))

theorem bst_pairwise (t : TNode) (h : BST t) : (inorder t).Pairwise (· ≤ ·) := by
  match t with
  | TNode.leaf => exact List.Pairwise.nil
  | TNode.node k p l r s c =>
    obtain ⟨bl, br, hlk, hrk, hc⟩ := h
    rw [inorder]
    rw [List.pairwise_append]
    refine ⟨?_, bst_pairwise r br, ?_⟩
    · rw [List.pairwise_append]
      refine ⟨bst_pairwise l bl, ?_, ?_⟩
      · rw [List.pairwise_replicate]
        exact Or.inr (le_refl k)
      · intro a ha b hb
        rw [List.eq_of_mem_replicate hb]
        exact le_of_lt (hlk a ha)
    · intro a ha b hb
      rw [List.mem_append] at ha
      rcases ha with ha | ha
      · exact le_of_lt (lt_trans (hlk a ha) (hrk b hb))
      · rw [List.eq_of_mem_replicate ha]
        exact le_of_lt (hrk b hb)

theorem run_aux (ops : List TOp) : ∀ t, BST t →
    BST (ops.foldl applyOp t) ∧
    ∀ x, (inorder (ops.foldl applyOp t)).count x
      = ops.foldl (multStep x) ((inorder t).count x) := by
  induction ops with
  | nil => exact fun t ht => ⟨ht, fun x => rfl⟩
  | cons op ops ih =>
    intro t ht
    have hbst : BST (applyOp t op) := by
      cases op with
      | ins k prNew => exact bst_insert k prNew ht
      | del k => exact bst_remove t k ht
    have hcount : ∀ x, (inorder (applyOp t op)).count x
        = multStep x ((inorder t).count x) op := by
      intro x
      cases op with
      | ins k prNew =>
        rw [applyOp, multStep, insert_count]
        by_cases hkx : k = x <;> simp [hkx]
      | del k =>
        rw [applyOp, multStep, remove_count t k ht]
        by_cases hkx : k = x <;> simp [hkx]
    obtain ⟨h1, h2⟩ := ih (applyOp t op) hbst
    refine ⟨by simpa using h1, fun x => ?_⟩
    have := h2 x
    rw [hcount x] at this
    simpa using this

/-- C5: after any sequence of inserts and removes from the empty treap, the
inorder listing is non-decreasing and contains each key exactly as often as its
multiplicity (inserts of the key minus its successful removals; the Nat
subtraction in multStep truncates at zero exactly like a removal of an absent
key, which the code makes a no-op). -/
theorem treap_inorder_sorted_mult (ops : List TOp) :
    (inorder (run ops)).Sorted (· ≤ ·) ∧
    ∀ x, (inorder (run ops)).count x = mult ops x := by
  obtain ⟨hb, hc⟩ := run_aux ops TNode.leaf trivial
  refine ⟨bst_pairwise _ hb, fun x => ?_⟩
  have := hc x
  rw [show (inorder TNode.leaf).count x = 0 from rfl] at this
  exact this

/-- Stored subtree sizes are consistent (Node::recalc maintains this). -/
def SizeOk : TNode → Prop
  | TNode.leaf => True
  | TNode.node _ _ l r s c => SizeOk l ∧ SizeOk r ∧ s = size l + c + size r

/-- C10: removing a key that is not contained is a silent no-op: the treap is
returned structurally unchanged, so len() and inorder_vec() are unchanged. -/
theorem treap_remove_absent_noop (t : TNode) (key : Int) (hsz : SizeOk t)
    (habs : contains t key = false) :
    remove_rec t key = t ∧ size (remove_rec t key) = size t ∧
      inorder (remove_rec t key) = inorder t := by
  have hmain : remove_rec t key = t := by
    induction t with
    | leaf => rfl
    | node k p l r s c ihl ihr =>
      obtain ⟨hl, hr, hs⟩ := hsz
      rw [remove_rec]
      rw [contains] at habs
      by_cases h1 : key < k
      · rw [if_pos h1]
        rw [if_pos h1] at habs
        rw [ihl hl habs]
        show TNode.node k p l r (size l + c + size r) c = TNode.node k p l r s c
        rw [hs]
      · rw [if_neg h1]
        by_cases h2 : key > k
        · rw [if_pos h2]
          rw [if_neg h1, if_pos h2] at habs
          rw [ihr hr habs]
          show TNode.node k p l r (size l + c + size r) c = TNode.node k p l r s c
          rw [hs]
        · rw [if_neg h1, if_neg h2] at habs
          simp at habs
  exact ⟨hmain, by rw [hmain], by rw [hmain]⟩

/-- Witness for C10: removing 42 from the singleton treap {5} changes nothing. -/
theorem treap_remove_absent_noop_witness :
    remove_rec (TNode.node 5 7 TNode.leaf TNode.leaf 1 1) 42
        = TNode.node 5 7 TNode.leaf TNode.leaf 1 1 ∧
    size (remove_rec (TNode.node 5 7 TNode.leaf TNode.leaf 1 1) 42)
        = size (TNode.node 5 7 TNode.leaf TNode.leaf 1 1) ∧
    inorder (remove_rec (TNode.node 5 7 TNode.leaf TNode.leaf 1 1) 42)
        = inorder (TNode.node 5 7 TNode.leaf TNode.leaf 1 1) :=
  treap_remove_absent_noop (TNode.node 5 7 TNode.leaf TNode.leaf 1 1) 42
    ⟨trivial, trivial, rfl⟩ (by decide)

theorem rotate_right_ne_leaf {k : Int} {p : Nat} {l r : TNode} {s c : Nat} :
    rotate_right (TNode.node k p l r s c) ≠ TNode.leaf := by
  cases l <;> exact fun h => TNode.noConfusion h

theorem insert_ne_leaf (t : TNode) (key : Int) (prNew : Nat) :
    insert_rec t key prNew ≠ TNode.leaf := by
  match t with
  | TNode.leaf =>
    rw [insert_rec]
    exact fun h => TNode.noConfusion h
  | TNode.node k p l r s c =>
    rw [insert_rec]
    by_cases h1 : key = k
    · rw [if_pos h1]
      exact fun h => TNode.noConfusion h
    · rw [if_neg h1]
      by_cases h2 : key < k
      · rw [if_pos h2]
        by_cases hp : prio (insert_rec l key prNew) > p
        · rw [if_pos hp]
          exact rotate_right_ne_leaf
        · rw [if_neg hp]
          exact fun h => TNode.noConfusion h
      · rw [if_neg h2]
        by_cases hp : prio (insert_rec r key prNew) > p
        · rw [if_pos hp]
          cases insert_rec r key prNew <;> exact fun h => TNode.noConfusion h
        · rw [if_neg hp]
          exact fun h => TNode.noConfusion h

theorem sizeOk_rotate_right {k xk : Int} {p xp : Nat} {xl xr r : TNode}
    {xs xc s c : Nat} (hxl : SizeOk xl) (hxr : SizeOk xr) (hr : SizeOk r) :
    SizeOk (rotate_right (TNode.node k p (TNode.node xk xp xl xr xs xc) r s c)) :=
  ⟨hxl, ⟨hxr, hr, rfl⟩, rfl⟩

theorem sizeOk_rotate_left {k yk : Int} {p yp : Nat} {l yl yr : TNode}
    {ys yc s c : Nat} (hl : SizeOk l) (hyl : SizeOk yl) (hyr : SizeOk yr) :
    SizeOk (rotate_left (TNode.node k p l (TNode.node yk yp yl yr ys yc) s c)) :=
  ⟨⟨hl, hyl, rfl⟩, hyr, rfl⟩

theorem sizeOk_insert (t : TNode) (key : Int) (prNew : Nat) (h : SizeOk t) :
    SizeOk (insert_rec t key prNew) := by
  match t with
  | TNode.leaf => exact ⟨trivial, trivial, rfl⟩
  | TNode.node k p l r s c =>
    obtain ⟨hl, hr, hs⟩ := h
    rw [insert_rec]
    by_cases h1 : key = k
    · rw [if_pos h1]
      exact ⟨hl, hr, rfl⟩
    · rw [if_neg h1]
      by_cases h2 : key < k
      · rw [if_pos h2]
        have hl2 : SizeOk (insert_rec l key prNew) := sizeOk_insert l key prNew hl
        by_cases hp : prio (insert_rec l key prNew) > p
        · rw [if_pos hp]
          cases he : insert_rec l key prNew with
          | leaf => exact absurd he (insert_ne_leaf l key prNew)
          | node xk xp xl xr xs xc =>
            rw [he] at hl2
            exact sizeOk_rotate_right hl2.1 hl2.2.1 hr
        · rw [if_neg hp]
          exact ⟨hl2, hr, rfl⟩
      · rw [if_neg h2]
        have hr2 : SizeOk (insert_rec r key prNew) := sizeOk_insert r key prNew hr
        by_cases hp : prio (insert_rec r key prNew) > p
        · rw [if_pos hp]
          cases he : insert_rec r key prNew with
          | leaf => exact absurd he (insert_ne_leaf r key prNew)
          | node yk yp yl yr ys yc =>
            rw [he] at hr2
            exact sizeOk_rotate_left hl hr2.1 hr2.2.1
        · rw [if_neg hp]
          exact ⟨hl, hr2, rfl⟩

theorem sizeOk_merge (a b : TNode) (ha : SizeOk a) (hb : SizeOk b) :
    SizeOk (merge a b) := by
  match a, b with
  | TNode.leaf, b =>
    rw [merge]
    exact hb
  | TNode.node ak ap al ar as2 ac, TNode.leaf =>
    have he : merge (TNode.node ak ap al ar as2 ac) TNode.leaf
        = TNode.node ak ap al ar as2 ac := by
      rw [merge]
      exact fun h => TNode.noConfusion h
    rw [he]
    exact ha
  | TNode.node ak ap al ar as2 ac, TNode.node bk bp bl br bs bc =>
    obtain ⟨hal, har, has⟩ := ha
    obtain ⟨hbl, hbr, hbs⟩ := hb
    rw [merge]
    by_cases hp : ap > bp
    · rw [if_pos hp]
      exact ⟨hal, sizeOk_merge ar (TNode.node bk bp bl br bs bc) har ⟨hbl, hbr, hbs⟩, rfl⟩
    · rw [if_neg hp]
      exact ⟨sizeOk_merge (TNode.node ak ap al ar as2 ac) bl ⟨hal, har, has⟩ hbl, hbr, rfl⟩

theorem sizeOk_remove (t : TNode) (key : Int) (h : SizeOk t) :
    SizeOk (remove_rec t key) := by
  match t with
  | TNode.leaf => exact h
  | TNode.node k p l r s c =>
    obtain ⟨hl, hr, hs⟩ := h
    rw [remove_rec]
    by_cases h1 : key < k
    · rw [if_pos h1]
      exact ⟨sizeOk_remove l key hl, hr, rfl⟩
    · rw [if_neg h1]
      by_cases h2 : key > k
      · rw [if_pos h2]
        exact ⟨hl, sizeOk_remove r key hr, rfl⟩
      · rw [if_neg h2]
        by_cases h3 : c > 1
        · rw [if_pos h3]
          exact ⟨hl, hr, rfl⟩
        · rw [if_neg h3]
          exact sizeOk_merge l r hl hr

/-- Every treap reachable by running operations has consistent sizes. -/
theorem sizeOk_run (ops : List TOp) : SizeOk (run ops) := by
  suffices h : ∀ t, SizeOk t → SizeOk (ops.foldl applyOp t) from h TNode.leaf trivial
  induction ops with
  | nil => exact fun t ht => ht
  | cons op ops ih =>
    intro t ht
    apply ih
    cases op with
    | ins k prNew => exact sizeOk_insert t k prNew ht
    | del k => exact sizeOk_remove t k ht

end Treap

namespace Fenwick

/-- Sum of the first k logical entries. -/
def prefixSum (a : List Int) (k : Nat) : Int := (a.take k).sum

theorem sum_set_int (l : List Int) (i : Nat) (v : Int) (h : i < l.length) :
    (l.set i v).sum = l.sum - l.getD i 0 + v := by
  induction l generalizing i with
  | nil => simp at h
  | cons hd tl ih =>
    cases i with
    | zero => simp [List.set]; ring
    | succ i =>
      have hi : i < tl.length := by simpa using h
      rw [List.set]
      simp only [List.sum_cons, List.getD_cons_succ]
      rw [ih i hi]
      ring

theorem prefixSum_set (a : List Int) (i : Nat) (v : Int) (k : Nat) (hi : i < a.length) :
    prefixSum (a.set i v) k = prefixSum a k + (if i < k then v - a.getD i 0 else 0) := by
  rw [prefixSum, prefixSum, List.set_take]
  by_cases hik : i < k
  · rw [if_pos hik]
    have hi2 : i < (a.take k).length := by
      rw [List.length_take]
      omega
    rw [sum_set_int _ i v hi2]
    have : (a.take k).getD i 0 = a.getD i 0 := by
      rw [List.getD_eq_getElem?_getD, List.getD_eq_getElem?_getD, List.getElem?_take_of_lt hik]
    rw [this]
    ring
  · rw [if_neg hik]
    have : (a.take k).set i v = a.take k := by
      apply List.set_eq_of_length_le
      rw [List.length_take]
      omega
    rw [this]
    ring

theorem prefixSum_succ (a : List Int) (k : Nat) (hk : k < a.length) :
    prefixSum a (k + 1) = prefixSum a k + a.getD k 0 := by
  rw [prefixSum, prefixSum, List.take_succ, List.sum_append, List.getElem?_eq_getElem hk]
  simp only [List.getD_eq_getElem?_getD, List.getElem?_eq_getElem hk, Option.getD_some,
    Option.toList_some, List.sum_cons, List.sum_nil]
  ring

/-- The Fenwick invariant: every slot holds the sum of its block
`[idx - lowbit idx, idx)` of the logical array (as a prefix-sum difference). -/
def FenwickInv (a : List Int) (tree : List Int) : Prop :=
  tree.length = a.length + 1 ∧
  ∀ idx, 1 ≤ idx → idx ≤ a.length →
    tree.getD idx 0 = prefixSum a idx - prefixSum a (idx - lowbit idx)

/-- t's block contains position c - 1; equivalently t lies on the update chain
started at c (established below). -/
def Covers (c t : Nat) : Prop := t - lowbit t < c ∧ c ≤ t

/-- The set of indices visited by the add loop starting at c. -/
inductive InChain (c : Nat) : Nat → Prop where
  | base : InChain c c
  | step {t : Nat} : InChain c t → InChain c (t + lowbit t)

theorem inChain_le {c t : Nat} (h : InChain c t) : c ≤ t := by
  induction h with
  | base => exact le_refl c
  | step _ ih => omega

/-- Climbing one step keeps the chain inside the blocks that contain c - 1:
the parent block extends at least as far left. -/
theorem covers_step {c t : Nat} (ht : 0 < t) (ht2 : t + lowbit t < 2 ^ 64)
    (h : Covers c t) : Covers c (t + lowbit t) := by
  obtain ⟨h1, h2⟩ := h
  have ht64 : t < 2 ^ 64 := by
    have := @lowbit_pos t ht (by omega)
    omega
  obtain ⟨α, m, hm⟩ := exists_odd_mul_pow t ht
  have hlbt : lowbit t = 2 ^ α := lowbit_eq hm ht64
  have htA : t + lowbit t = (m + 1) * 2 ^ (α + 1) := by
    rw [hlbt, hm]
    ring
  have hm1 : 0 < m + 1 := by omega
  obtain ⟨e, w, hw⟩ := exists_odd_mul_pow (m + 1) hm1
  have htB : t + lowbit t = (2 * w + 1) * 2 ^ (α + 1 + e) := by
    rw [htA, hw, pow_add]
    ring
  have hlbt2 : lowbit (t + lowbit t) = 2 ^ (α + 1 + e) := lowbit_eq htB ht2
  refine ⟨?_, by omega⟩
  rw [hlbt2]
  rw [hlbt] at h1 ⊢
  have hkey : t + 2 ^ α - 2 ^ (α + 1 + e) ≤ t - 2 ^ α := by
    have he1 : (2 : Nat) ^ (α + 1 + e) = 2 ^ (α + 1) * 2 ^ e := by rw [pow_add]
    have he2 : (1 : Nat) ≤ 2 ^ e := Nat.one_le_two_pow
    have he3 : (2 : Nat) ^ (α + 1) = 2 ^ α + 2 ^ α := by rw [pow_succ]; ring
    have hts : t = m * (2 ^ α + 2 ^ α) + 2 ^ α := by
      rw [hm]; ring
    have hmw : m + 1 = 2 * w * 2 ^ e + 2 ^ e := by
      rw [hw]; ring
    have h2e : 2 ^ (α + 1) * 2 ^ e = (2 ^ α + 2 ^ α) * 2 ^ e := by rw [he3]
    have hbig : 2 ^ α + 2 ^ α ≤ (2 ^ α + 2 ^ α) * 2 ^ e :=
      Nat.le_mul_of_pos_right _ (Nat.pos_pow_of_pos e (by norm_num))
    have hmul : m * (2 ^ α + 2 ^ α) + (2 ^ α + 2 ^ α)
        = (2 ^ α + 2 ^ α) * 2 ^ e + 2 * w * ((2 ^ α + 2 ^ α) * 2 ^ e) := by
      have : m * (2 ^ α + 2 ^ α) + (2 ^ α + 2 ^ α) = (m + 1) * (2 ^ α + 2 ^ α) := by ring
      rw [this, hmw]
      ring
    rw [he1, h2e]
    omega
  omega

/-- If t's block contains position c - 1 strictly left of t, the next chain
index from c does not overshoot t. -/
theorem chain_step_le {c t : Nat} (hc : 0 < c) (ht64 : t < 2 ^ 64)
    (h1 : t - lowbit t < c) (h2 : c < t) : c + lowbit c ≤ t := by
  have hc64 : c < 2 ^ 64 := by omega
  have ht : 0 < t := by omega
  obtain ⟨α, m, hm⟩ := exists_odd_mul_pow t ht
  have hlbt : lowbit t = 2 ^ α := lowbit_eq hm ht64
  have hpα : (0 : Nat) < 2 ^ α := Nat.pos_pow_of_pos α (by norm_num)
  have hlbt_le : 2 ^ α ≤ t := by rw [← hlbt]; exact lowbit_le ht ht64
  set r := c - (t - 2 ^ α) with hr
  have hr1 : 0 < r := by rw [hlbt] at h1; omega
  have hr2 : r < 2 ^ α := by rw [hlbt] at h1; omega
  have hcr : c = (t - 2 ^ α) + r := by rw [hlbt] at h1; omega
  obtain ⟨v, u, hu⟩ := exists_odd_mul_pow r hr1
  have hpv : (0 : Nat) < 2 ^ v := Nat.pos_pow_of_pos v (by norm_num)
  have hva : v < α := by
    by_contra hcon
    have : 2 ^ α ≤ 2 ^ v := Nat.pow_le_pow_right (by norm_num) (by omega)
    have : 2 ^ v ≤ r := by
      rw [hu]
      calc 2 ^ v = 1 * 2 ^ v := (Nat.one_mul _).symm
        _ ≤ (2 * u + 1) * 2 ^ v := Nat.mul_le_mul_right _ (by omega)
    omega
  have hsplit : (2 : Nat) ^ α = 2 ^ v * 2 ^ (α - v) := by
    rw [← pow_add]
    congr 1
    omega
  have hc_decomp : c = (2 * (m * 2 ^ (α - v) + u) + 1) * 2 ^ v := by
    have htv : t - 2 ^ α = 2 * m * 2 ^ α := by
      rw [hm]
      have : (2 * m + 1) * 2 ^ α = 2 * m * 2 ^ α + 2 ^ α := by ring
      omega
    rw [hcr, htv, hu, hsplit]
    ring
  have hlbc : lowbit c = 2 ^ v := lowbit_eq hc_decomp hc64
  rw [hlbc, hcr, hu]
  have huE : 2 * u + 2 ≤ 2 ^ (α - v) := by
    have : (2 * u + 1) * 2 ^ v < 2 ^ v * 2 ^ (α - v) := by
      rw [← hsplit, ← hu]
      exact hr2
    have h3 : 2 * u + 1 < 2 ^ (α - v) := by
      by_contra hcon
      have : 2 ^ v * 2 ^ (α - v) ≤ (2 * u + 1) * 2 ^ v := by
        calc 2 ^ v * 2 ^ (α - v) = 2 ^ (α - v) * 2 ^ v := by ring
          _ ≤ (2 * u + 1) * 2 ^ v := Nat.mul_le_mul_right _ (by omega)
      omega
    omega
  have hfin : (2 * u + 1) * 2 ^ v + 2 ^ v ≤ 2 ^ α := by
    have : (2 * u + 1) * 2 ^ v + 2 ^ v = (2 * u + 2) * 2 ^ v := by ring
    rw [this, hsplit]
    calc (2 * u + 2) * 2 ^ v ≤ 2 ^ (α - v) * 2 ^ v := Nat.mul_le_mul_right _ huE
      _ = 2 ^ v * 2 ^ (α - v) := by ring
  omega

instance (c t : Nat) : Decidable (Covers c t) :=
  inferInstanceAs (Decidable (_ < _ ∧ _ ≤ _))

theorem inChain_trans_step {c t : Nat} (h : InChain (c + lowbit c) t) : InChain c t := by
  induction h with
  | base => exact InChain.step InChain.base
  | step _ ihh => exact InChain.step ihh

/-- Completeness: every index whose block contains c - 1 is visited by the
chain from c. -/
theorem inChain_of_covers {c t : Nat} (hc : 0 < c) (ht64 : t < 2 ^ 64)
    (h : Covers c t) : InChain c t := by
  obtain ⟨h1, h2⟩ := h
  by_cases heq : c = t
  · subst heq
    exact InChain.base
  · have hlt : c < t := by omega
    have hstep : c + lowbit c ≤ t := chain_step_le hc ht64 h1 hlt
    have hlbc : 0 < lowbit c := lowbit_pos hc (by omega)
    have ih : InChain (c + lowbit c) t :=
      @inChain_of_covers (c + lowbit c) t (by omega) ht64 ⟨by omega, hstep⟩
    exact inChain_trans_step ih
termination_by t - c
decreasing_by
  have := lowbit_pos hc (by omega : c < 2 ^ 64)
  omega

/-- Soundness: every index the chain from c visits has c - 1 in its block. -/
theorem covers_of_inChain {c t : Nat} (hc : 0 < c) (h : InChain c t) :
    t < 2 ^ 64 → Covers c t := by
  induction h with
  | base =>
    intro hc64
    have : 0 < lowbit c := lowbit_pos hc (by omega)
    exact ⟨by omega, le_refl c⟩
  | @step t0 h0 ih =>
    intro ht64
    have ht0 : 0 < t0 := by
      have := inChain_le h0
      omega
    have ht064 : t0 < 2 ^ 64 := by omega
    exact covers_step ht0 ht64 (ih ht064)

/-- The membership test for the add chain, as a block condition. -/
theorem inChain_iff_covers {c t : Nat} (hc : 0 < c) (ht64 : t < 2 ^ 64) :
    InChain c t ↔ Covers c t :=
  ⟨fun h => covers_of_inChain hc h ht64, inChain_of_covers hc ht64⟩

theorem addGo_length (tree : List Int) (c : Nat) (delta : Int) :
    (addGo tree c delta).length = tree.length := by
  rw [addGo]
  by_cases h : 0 < c ∧ c < tree.length ∧ c < 2 ^ 64
  · rw [dif_pos h]
    rw [addGo_length _ (c + lowbit c) delta]
    simp
  · rw [dif_neg h]
termination_by tree.length - c
decreasing_by
  simp only [List.length_set]
  have := lowbit_pos h.1 h.2.2
  omega

theorem addGo_getD_zero (tree : List Int) (c : Nat) (delta : Int) (hc : 0 < c) :
    (addGo tree c delta).getD 0 0 = tree.getD 0 0 := by
  rw [addGo]
  by_cases h : 0 < c ∧ c < tree.length ∧ c < 2 ^ 64
  · rw [dif_pos h]
    have := lowbit_pos h.1 h.2.2
    rw [addGo_getD_zero _ (c + lowbit c) delta (by omega)]
    rw [SparseT.getD_set_ne (by omega)]
  · rw [dif_neg h]
termination_by tree.length - c
decreasing_by
  simp only [List.length_set]
  have := lowbit_pos h.1 h.2.2
  omega

/-- The add loop adds delta exactly at the in-range indices whose block
contains position c - 1. -/
theorem addGo_effect (tree : List Int) (c : Nat) (delta : Int) (hc : 0 < c)
    (hlen : tree.length ≤ 2 ^ 64) :
    ∀ t, 0 < t → t < tree.length →
      (addGo tree c delta).getD t 0
        = tree.getD t 0 + (if Covers c t then delta else 0) := by
  intro t ht htlen
  have ht64 : t < 2 ^ 64 := by omega
  rw [addGo]
  by_cases hg : 0 < c ∧ c < tree.length ∧ c < 2 ^ 64
  · rw [dif_pos hg]
    have hlbc : 0 < lowbit c := lowbit_pos hg.1 hg.2.2
    have hrec := addGo_effect (tree.set c (tree.getD c 0 + delta)) (c + lowbit c) delta
      (by omega) (by simpa using hlen) t ht (by simpa using htlen)
    rw [hrec]
    by_cases htc : t = c
    · subst htc
      rw [SparseT.getD_set_self (by omega)]
      have hnc : ¬ Covers (t + lowbit t) t := by
        intro hcon
        have := hcon.2
        omega
      have hyc : Covers t t := ⟨by omega, le_refl t⟩
      rw [if_neg hnc, if_pos hyc]
      ring
    · rw [SparseT.getD_set_ne (fun hcon => htc hcon.symm)]
      have hiff : Covers c t ↔ Covers (c + lowbit c) t := by
        constructor
        · intro ⟨h1, h2⟩
          have hlt : c < t := by omega
          have := chain_step_le hg.1 ht64 h1 hlt
          exact ⟨by omega, this⟩
        · intro hcov
          have hch : InChain (c + lowbit c) t :=
            inChain_of_covers (by omega) ht64 hcov
          exact covers_of_inChain hg.1 (inChain_trans_step hch) ht64
      by_cases hcov : Covers c t
      · rw [if_pos hcov, if_pos (hiff.mp hcov)]
      · rw [if_neg hcov, if_neg (fun hcon => hcov (hiff.mpr hcon))]
  · rw [dif_neg hg]
    have hnc : ¬ Covers c t := by
      intro ⟨h1, h2⟩
      exact hg ⟨hc, by omega, by omega⟩
    rw [if_neg hnc]
    ring
termination_by tree.length - c
decreasing_by
  simp only [List.length_set]
  have := lowbit_pos hg.1 hg.2.2
  omega

theorem getD_replicate_zero (n idx : Nat) : (List.replicate n (0 : Int)).getD idx 0 = 0 := by
  rw [List.getD_eq_getElem?_getD, List.getElem?_replicate]
  split <;> rfl

theorem prefixSum_replicate_zero (n k : Nat) : prefixSum (List.replicate n (0 : Int)) k = 0 := by
  rw [prefixSum, List.take_replicate]
  simp

/-- A fresh all-zero tree satisfies the invariant for the all-zero array. -/
theorem fenwickInv_new (n : Nat) : FenwickInv (List.replicate n 0) (new n).tree := by
  refine ⟨by simp [new], ?_⟩
  intro idx h1 h2
  show (List.replicate (n + 1) (0 : Int)).getD idx 0 = _
  rw [getD_replicate_zero, prefixSum_replicate_zero, prefixSum_replicate_zero]
  ring

/-- Point update: add(i, d) keeps the invariant for the updated logical array. -/
theorem fenwickInv_add {a tree : List Int} (hInv : FenwickInv a tree) (i : Nat) (d : Int)
    (hi : i < a.length) (hn : a.length < 2 ^ 64) :
    FenwickInv (a.set i (a.getD i 0 + d)) (addGo tree (i + 1) d) := by
  obtain ⟨hlen, hval⟩ := hInv
  refine ⟨by rw [addGo_length, hlen, List.length_set], ?_⟩
  intro idx h1 h2
  rw [List.length_set] at h2
  have heff := addGo_effect tree (i + 1) d (by omega) (by omega) idx (by omega) (by omega)
  rw [heff, hval idx h1 h2]
  have hlb : 0 < lowbit idx := lowbit_pos (by omega) (by omega)
  have hlble : lowbit idx ≤ idx := lowbit_le (by omega) (by omega)
  rw [prefixSum_set a i _ idx hi, prefixSum_set a i _ (idx - lowbit idx) hi]
  have hd : a.getD i 0 + d - a.getD i 0 = d := by ring
  rw [hd]
  by_cases hcov : Covers (i + 1) idx
  · obtain ⟨hc1, hc2⟩ := hcov
    rw [if_pos (show Covers (i + 1) idx from ⟨hc1, hc2⟩)]
    rw [if_pos (by omega : i < idx), if_neg (by omega : ¬ i < idx - lowbit idx)]
    ring
  · rw [if_neg hcov]
    rw [Covers] at hcov
    push_neg at hcov
    by_cases hi1 : i < idx
    · have h3 : i < idx - lowbit idx := by
        by_cases hc1 : idx - lowbit idx < i + 1
        · exact absurd (hcov hc1) (by omega)
        · omega
      rw [if_pos hi1, if_pos h3]
      ring
    · rw [if_neg hi1, if_neg (by omega)]
      ring

/-- The query loop returns the accumulated prefix sum. -/
theorem queryGo_prefixSum {a tree : List Int} (hInv : FenwickInv a tree)
    (hn : a.length < 2 ^ 64) :
    ∀ idx, idx ≤ a.length → ∀ s, queryGo tree idx s = s + prefixSum a idx := by
  intro idx
  induction idx using Nat.strong_induction_on with
  | _ idx ih =>
    intro hidx s
    rw [queryGo]
    by_cases hg : 0 < idx ∧ idx < 2 ^ 64
    · rw [dif_pos hg]
      have hlb := lowbit_pos hg.1 hg.2
      have hle := lowbit_le hg.1 hg.2
      rw [ih (idx - lowbit idx) (by omega) (by omega)]
      rw [hInv.2 idx (by omega) hidx]
      ring
    · rw [dif_neg hg]
      have h0 : idx = 0 := by omega
      subst h0
      show s = s + prefixSum a 0
      rw [prefixSum]
      simp

/-- new(n) followed by a sequence of add calls (the claim's mutation model). -/
def runAdds (n : Nat) (ops : List (Nat × Int)) : FenwickTree :=
  ops.foldl (fun ft p => add ft p.1 p.2) (new n)

/-- The logical array those adds build from the all-zero array. -/
def runLogical (n : Nat) (ops : List (Nat × Int)) : List Int :=
  ops.foldl (fun a p => a.set p.1 (a.getD p.1 0 + p.2)) (List.replicate n 0)

theorem foldl_set_length (ops : List (Nat × Int)) :
    ∀ a : List Int, (ops.foldl (fun a p => a.set p.1 (a.getD p.1 0 + p.2)) a).length
      = a.length := by
  induction ops with
  | nil => intro a; rfl
  | cons p ops ih =>
    intro a
    rw [List.foldl_cons, ih]
    simp

theorem runAdds_inv (ops : List (Nat × Int)) :
    ∀ (a : List Int) (ft : FenwickTree), a.length < 2 ^ 64 →
    FenwickInv a ft.tree → (∀ p ∈ ops, p.1 < a.length) →
    FenwickInv (ops.foldl (fun a p => a.set p.1 (a.getD p.1 0 + p.2)) a)
      ((ops.foldl (fun ft p => add ft p.1 p.2) ft).tree) := by
  induction ops with
  | nil => exact fun a ft _ h _ => h
  | cons p ops ih =>
    intro a ft hn hInv hops
    rw [List.foldl_cons, List.foldl_cons]
    have hp : p.1 < a.length := hops p (by simp)
    have hstep : FenwickInv (a.set p.1 (a.getD p.1 0 + p.2)) (add ft p.1 p.2).tree :=
      fenwickInv_add hInv p.1 p.2 hp hn
    exact ih (a.set p.1 (a.getD p.1 0 + p.2)) (add ft p.1 p.2)
      (by rw [List.length_set]; exact hn) hstep
      (fun q hq => by rw [List.length_set]; exact hops q (by simp [hq]))

/-- The block of values slot c accumulates. -/
def blockSum (a : List Int) (c : Nat) : Int :=
  prefixSum a c - prefixSum a (c - lowbit c)

/-- The children of slot idx already processed after step i of from_vec. -/
def childFilter (i idx : Nat) : Finset Nat :=
  (Finset.range idx).filter (fun c => 0 < c ∧ c + lowbit c = idx ∧ c ≤ i)

def childPartial (a : List Int) (i idx : Nat) : Int :=
  (childFilter i idx).sum (fun c => blockSum a c)

/-- For j below the 2-adic valuation, idx - 2^j is a child of idx. -/
theorem child_sub_pow {idx α m j : Nat} (hm : idx = (2 * m + 1) * 2 ^ α)
    (hj : j < α) (h64 : idx < 2 ^ 64) :
    0 < idx - 2 ^ j ∧ lowbit (idx - 2 ^ j) = 2 ^ j ∧ (idx - 2 ^ j) + 2 ^ j = idx := by
  have hpj : (0 : Nat) < 2 ^ j := Nat.pos_pow_of_pos j (by norm_num)
  have hpα : (0 : Nat) < 2 ^ α := Nat.pos_pow_of_pos α (by norm_num)
  have hja : (2 : Nat) ^ j < 2 ^ α := Nat.pow_lt_pow_right (by norm_num) hj
  have hidxα : 2 ^ α ≤ idx := by
    rw [hm]
    calc 2 ^ α = 1 * 2 ^ α := (Nat.one_mul _).symm
      _ ≤ (2 * m + 1) * 2 ^ α := Nat.mul_le_mul_right _ (by omega)
  have hW : (0 : Nat) < (2 * m + 1) * 2 ^ (α - j - 1) :=
    Nat.mul_pos (by omega) (Nat.pos_pow_of_pos _ (by norm_num))
  have hdecomp : idx - 2 ^ j = (2 * ((2 * m + 1) * 2 ^ (α - j - 1) - 1) + 1) * 2 ^ j := by
    have hsplit : (2 : Nat) ^ α = 2 ^ (α - j - 1) * 2 * 2 ^ j := by
      rw [Nat.mul_assoc, ← pow_succ']
      rw [← pow_add]
      congr 1
      omega
    rw [hm, hsplit]
    have : (2 * m + 1) * (2 ^ (α - j - 1) * 2 * 2 ^ j)
        = (2 * ((2 * m + 1) * 2 ^ (α - j - 1))) * 2 ^ j := by ring
    rw [this]
    have h2 : (2 * ((2 * m + 1) * 2 ^ (α - j - 1))) * 2 ^ j
        = (2 * ((2 * m + 1) * 2 ^ (α - j - 1) - 1) + 1) * 2 ^ j + 2 ^ j := by
      have : 2 * ((2 * m + 1) * 2 ^ (α - j - 1))
          = (2 * ((2 * m + 1) * 2 ^ (α - j - 1) - 1) + 1) + 1 := by omega
      rw [this]
      ring
    omega
  refine ⟨by omega, ?_, by omega⟩
  exact lowbit_eq hdecomp (by omega)

/-- Conversely every child of idx has the form idx - 2^j with 2^j below the
lowest set bit of idx. -/
theorem child_form {idx c : Nat} (hc : 0 < c) (hci : c + lowbit c = idx)
    (h64 : idx < 2 ^ 64) :
    ∃ j, c = idx - 2 ^ j ∧ lowbit c = 2 ^ j ∧ 2 ^ (j + 1) ∣ idx := by
  have hc64 : c < 2 ^ 64 := by
    have := lowbit_pos hc (show c < 2 ^ 64 by by_contra hcon; push_neg at hcon; omega)
    omega
  obtain ⟨j, u, hu⟩ := exists_odd_mul_pow c hc
  have hlbc : lowbit c = 2 ^ j := lowbit_eq hu hc64
  refine ⟨j, by omega, hlbc, ?_⟩
  refine ⟨u + 1, ?_⟩
  rw [← hci, hlbc, hu, pow_succ]
  ring

theorem childFilter_all (idx : Nat) (h0 : 0 < idx) (h64 : idx < 2 ^ 64)
    {α m : Nat} (hm : idx = (2 * m + 1) * 2 ^ α) :
    childFilter (idx - 1) idx = (Finset.range α).image (fun j => idx - 2 ^ j) := by
  have hlbidx : lowbit idx = 2 ^ α := lowbit_eq hm h64
  ext c
  rw [childFilter, Finset.mem_filter, Finset.mem_range, Finset.mem_image]
  constructor
  · intro ⟨hcr, hcpos, hcp, _⟩
    obtain ⟨j, hc1, hc2, hc3⟩ := child_form hcpos hcp h64
    refine ⟨j, ?_, hc1.symm⟩
    rw [Finset.mem_range]
    by_contra hcon
    push_neg at hcon
    obtain ⟨w, hw⟩ := hc3
    have hsplit : (2 : Nat) ^ (j + 1) = 2 ^ α * 2 ^ (j + 1 - α) := by
      rw [← pow_add]
      congr 1
      omega
    have heven : 2 * m + 1 = w * 2 ^ (j + 1 - α) := by
      have h1 : (2 * m + 1) * 2 ^ α = 2 ^ α * (w * 2 ^ (j + 1 - α)) := by
        rw [← hm]
        conv_lhs => rw [hw, hsplit]
        ring
      have h2 : (2 * m + 1) * 2 ^ α = 2 ^ α * (2 * m + 1) := by ring
      have := h1.symm.trans h2
      exact (Nat.eq_of_mul_eq_mul_left (Nat.pos_pow_of_pos α (by norm_num)) this).symm
    have hpow2 : (2 : Nat) ^ (j + 1 - α) = 2 * 2 ^ (j - α) := by
      rw [← pow_succ']
      congr 1
      omega
    have heven2 : 2 * m + 1 = 2 * (w * 2 ^ (j - α)) := by
      rw [heven, hpow2]
      ring
    omega
  · intro ⟨j, hj, hc⟩
    rw [Finset.mem_range] at hj
    obtain ⟨hpos, hlb, hsum⟩ := child_sub_pow hm hj h64
    have hpj : (0 : Nat) < 2 ^ j := Nat.pos_pow_of_pos j (by norm_num)
    subst hc
    exact ⟨by omega, hpos, by rw [hlb]; exact hsum, by omega⟩

/-- Tiling: the blocks of the children of idx and the single cell idx - 1 tile
the block of idx. -/
theorem childPartial_complete (a : List Int) (idx : Nat) (h0 : 0 < idx)
    (h64 : idx < 2 ^ 64) :
    childPartial a (idx - 1) idx
      = prefixSum a (idx - 1) - prefixSum a (idx - lowbit idx) := by
  obtain ⟨α, m, hm⟩ := exists_odd_mul_pow idx h0
  have hlbidx : lowbit idx = 2 ^ α := lowbit_eq hm h64
  rw [childPartial, childFilter_all idx h0 h64 hm]
  rw [Finset.sum_image]
  · have hcong : ∀ j ∈ Finset.range α,
        blockSum a (idx - 2 ^ j)
          = prefixSum a (idx - 2 ^ j) - prefixSum a (idx - 2 ^ (j + 1)) := by
      intro j hj
      rw [Finset.mem_range] at hj
      obtain ⟨hpos, hlb, hsum⟩ := child_sub_pow hm hj h64
      rw [blockSum, hlb]
      congr 2
      have h2j : (2 : Nat) ^ (j + 1) = 2 ^ j + 2 ^ j := by rw [pow_succ]; ring
      omega
    rw [Finset.sum_congr rfl hcong]
    rw [Finset.sum_range_sub' (fun j => prefixSum a (idx - 2 ^ j)) α]
    rw [hlbidx]
    norm_num
  · intro j1 hj1 j2 hj2 heq
    rw [Finset.mem_range] at hj1 hj2
    have hle1 : (2 : Nat) ^ j1 ≤ idx := by
      obtain ⟨h, _, _⟩ := child_sub_pow hm hj1 h64
      omega
    have hle2 : (2 : Nat) ^ j2 ≤ idx := by
      obtain ⟨h, _, _⟩ := child_sub_pow hm hj2 h64
      omega
    have : (2 : Nat) ^ j1 = 2 ^ j2 := by omega
    exact Nat.pow_right_injective (by norm_num) this

/-- State of the tree after from_vec has processed the first i values: slots
up to i are complete, later slots hold the pushes received so far. -/
def PartialInv (a : List Int) (i : Nat) (tree : List Int) : Prop :=
  tree.length = a.length + 1 ∧ tree.getD 0 0 = 0 ∧
  ∀ idx, 1 ≤ idx → idx ≤ a.length →
    tree.getD idx 0 = if idx ≤ i then blockSum a idx else childPartial a i idx

theorem childFilter_succ_ne {i idx : Nat} (hne : (i + 1) + lowbit (i + 1) ≠ idx) :
    childFilter (i + 1) idx = childFilter i idx := by
  ext c
  rw [childFilter, childFilter, Finset.mem_filter, Finset.mem_filter]
  constructor
  · intro ⟨h1, h2, h3, h4⟩
    refine ⟨h1, h2, h3, ?_⟩
    rcases Nat.lt_or_ge c (i + 1) with h | h
    · omega
    · have hc : c = i + 1 := by omega
      subst hc
      exact absurd h3 hne
  · intro ⟨h1, h2, h3, h4⟩
    exact ⟨h1, h2, h3, by omega⟩

theorem childFilter_succ_parent {i : Nat} (h64 : i + 1 < 2 ^ 64) :
    childFilter (i + 1) ((i + 1) + lowbit (i + 1))
      = insert (i + 1) (childFilter i ((i + 1) + lowbit (i + 1))) ∧
    (i + 1) ∉ childFilter i ((i + 1) + lowbit (i + 1)) := by
  have hlb : 0 < lowbit (i + 1) := lowbit_pos (by omega) h64
  constructor
  · ext c
    rw [Finset.mem_insert, childFilter, childFilter, Finset.mem_filter, Finset.mem_filter,
      Finset.mem_range]
    constructor
    · intro ⟨h1, h2, h3, h4⟩
      by_cases hc : c = i + 1
      · exact Or.inl hc
      · exact Or.inr ⟨h1, h2, h3, by omega⟩
    · intro h
      rcases h with h | ⟨h1, h2, h3, h4⟩
      · subst h
        exact ⟨by omega, by omega, rfl, le_refl _⟩
      · exact ⟨h1, h2, h3, by omega⟩
  · rw [childFilter, Finset.mem_filter]
    intro ⟨h1, h2, h3, h4⟩
    omega

theorem childFilter_zero (idx : Nat) : childFilter 0 idx = ∅ := by
  ext c
  rw [childFilter, Finset.mem_filter]
  simp only [Finset.not_mem_empty, iff_false]
  intro ⟨h1, h2, h3, h4⟩
  omega

theorem fromVecGo_step (a : List Int) (tree : List Int) (i : Nat) (h : i < a.length) :
    fromVecGo a tree i
      = fromVecGo a
          (if (i + 1) + lowbit (i + 1)
              < (tree.set (i + 1) (tree.getD (i + 1) 0 + a.getD i 0)).length then
            (tree.set (i + 1) (tree.getD (i + 1) 0 + a.getD i 0)).set
              ((i + 1) + lowbit (i + 1))
              ((tree.set (i + 1) (tree.getD (i + 1) 0 + a.getD i 0)).getD
                  ((i + 1) + lowbit (i + 1)) 0
                + (tree.set (i + 1) (tree.getD (i + 1) 0 + a.getD i 0)).getD (i + 1) 0)
          else tree.set (i + 1) (tree.getD (i + 1) 0 + a.getD i 0))
          (i + 1) := by
  rw [fromVecGo, dif_pos h]

theorem fromVecGo_inv (a : List Int) (ha : a.length < 2 ^ 64) (i : Nat) (tree : List Int)
    (hi : i ≤ a.length) (hInv : PartialInv a i tree) :
    PartialInv a a.length (fromVecGo a tree i) := by
  by_cases hg : i < a.length
  · obtain ⟨hlen, h0, hval⟩ := hInv
    rw [fromVecGo_step a tree i hg]
    set t1 := tree.set (i + 1) (tree.getD (i + 1) 0 + a.getD i 0) with ht1
    have hi64 : i + 1 < 2 ^ 64 := by omega
    have hlb1 : 0 < lowbit (i + 1) := lowbit_pos (by omega) hi64
    have hi1n : i + 1 ≤ a.length := by omega
    have ht1len : t1.length = a.length + 1 := by
      rw [ht1, List.length_set, hlen]
    have hset1i : t1.getD (i + 1) 0 = tree.getD (i + 1) 0 + a.getD i 0 := by
      rw [ht1]
      exact SparseT.getD_set_self (by omega)
    have hset1 : ∀ idx, idx ≠ i + 1 → t1.getD idx 0 = tree.getD idx 0 := by
      intro idx hne
      rw [ht1]
      exact SparseT.getD_set_ne (fun hc => hne hc.symm) _ _
    have hchild_eq : childPartial a i (i + 1)
        = prefixSum a i - prefixSum a (i + 1 - lowbit (i + 1)) := by
      have h := childPartial_complete a (i + 1) (by omega) hi64
      have he : i + 1 - 1 = i := by omega
      rw [he] at h
      exact h
    have hblock : t1.getD (i + 1) 0 = blockSum a (i + 1) := by
      rw [hset1i, hval (i + 1) (by omega) hi1n, if_neg (by omega), hchild_eq,
        blockSum, prefixSum_succ a i hg]
      ring
    have hmain : ∀ t2 : List Int, PartialInv a (i + 1) t2 →
        PartialInv a a.length (fromVecGo a t2 (i + 1)) := by
      intro t2 h2
      exact fromVecGo_inv a ha (i + 1) t2 (by omega) h2
    by_cases hpar : (i + 1) + lowbit (i + 1) < t1.length
    · rw [if_pos hpar]
      apply hmain
      set parent := (i + 1) + lowbit (i + 1) with hparent
      have hparn : parent ≤ a.length := by
        rw [ht1len] at hpar
        omega
      obtain ⟨hins, hnotmem⟩ := childFilter_succ_parent hi64
      refine ⟨by rw [List.length_set, ht1len], ?_, ?_⟩
      · rw [SparseT.getD_set_ne (by omega), hset1 0 (by omega)]
        exact h0
      · intro idx hidx1 hidx2
        by_cases hip : idx = parent
        · subst hip
          rw [SparseT.getD_set_self (by omega), hset1 parent (by omega), hblock]
          rw [if_neg (by omega)]
          rw [hval parent (by omega) hparn, if_neg (by omega)]
          rw [childPartial, childPartial, hins, Finset.sum_insert hnotmem]
          ring
        · rw [SparseT.getD_set_ne (fun hc => hip hc.symm)]
          by_cases hii : idx = i + 1
          · subst hii
            rw [hblock, if_pos (le_refl _)]
          · rw [hset1 idx hii, hval idx hidx1 hidx2]
            by_cases hle : idx ≤ i
            · rw [if_pos hle, if_pos (by omega)]
            · rw [if_neg hle, if_neg (by omega)]
              rw [childPartial, childPartial, childFilter_succ_ne (fun hc => hip hc.symm)]
    · rw [if_neg hpar]
      apply hmain
      refine ⟨ht1len, by rw [hset1 0 (by omega)]; exact h0, ?_⟩
      intro idx hidx1 hidx2
      have hparn : a.length < (i + 1) + lowbit (i + 1) := by
        rw [ht1len] at hpar
        omega
      by_cases hii : idx = i + 1
      · subst hii
        rw [hblock, if_pos (le_refl _)]
      · rw [hset1 idx hii, hval idx hidx1 hidx2]
        by_cases hle : idx ≤ i
        · rw [if_pos hle, if_pos (by omega)]
        · rw [if_neg hle, if_neg (by omega)]
          rw [childPartial, childPartial, childFilter_succ_ne (by omega)]
  · have heq : i = a.length := by omega
    rw [fromVecGo, dif_neg hg]
    subst heq
    exact hInv
termination_by a.length - i

/-- from_vec builds a tree satisfying the Fenwick invariant for its input. -/
theorem from_vec_inv (a : List Int) (ha : a.length < 2 ^ 64) :
    FenwickInv a (from_vec a).tree ∧ (from_vec a).tree.getD 0 0 = 0 := by
  have hstart : PartialInv a 0 (List.replicate (a.length + 1) 0) := by
    refine ⟨by simp, getD_replicate_zero _ _, ?_⟩
    intro idx h1 h2
    rw [getD_replicate_zero, if_neg (by omega), childPartial, childFilter_zero]
    simp
  have hfin := fromVecGo_inv a ha 0 (List.replicate (a.length + 1) 0) (by omega) hstart
  obtain ⟨hlen, h0, hval⟩ := hfin
  have htr : (from_vec a).tree = fromVecGo a (List.replicate (a.length + 1) 0) 0 := rfl
  rw [htr]
  refine ⟨⟨hlen, ?_⟩, h0⟩
  intro idx h1 h2
  have := hval idx h1 h2
  rw [if_pos h2] at this
  rw [this, blockSum]

/-- new(n) followed by add(i, a[i]) for i = 0 .. n-1, the construction
from_vec is claimed to match. -/
def addsGo (a : List Int) (ft : FenwickTree) (i : Nat) : FenwickTree :=
  if i < a.length then addsGo a (add ft i (a.getD i 0)) (i + 1) else ft
termination_by a.length - i

def buildByAdds (a : List Int) : FenwickTree := addsGo a (new a.length) 0

/-- The logical array after the first i of those adds. -/
def partialArr (a : List Int) (i : Nat) : List Int :=
  a.take i ++ List.replicate (a.length - i) 0

theorem partialArr_length (a : List Int) (i : Nat) (hi : i ≤ a.length) :
    (partialArr a i).length = a.length := by
  rw [partialArr, List.length_append, List.length_take, List.length_replicate]
  omega

theorem partialArr_getD_right (a : List Int) (i : Nat) (hi : i < a.length) :
    (partialArr a i).getD i 0 = 0 := by
  rw [partialArr, List.getD_append_right _ _ _ _ (by rw [List.length_take]; omega)]
  rw [List.length_take]
  exact getD_replicate_zero _ _

theorem partialArr_set (a : List Int) (i : Nat) (hi : i < a.length) :
    (partialArr a i).set i (a.getD i 0) = partialArr a (i + 1) := by
  rw [partialArr, partialArr]
  rw [List.set_append_right _ _ (by rw [List.length_take]; omega)]
  rw [List.length_take]
  have hmin : min i a.length = i := by omega
  rw [hmin, Nat.sub_self]
  have hrep : a.length - i = (a.length - (i + 1)) + 1 := by omega
  rw [hrep, List.replicate_succ, List.set_cons_zero]
  rw [List.take_succ, List.getElem?_eq_getElem hi]
  simp only [Option.toList_some, List.append_assoc, List.singleton_append]
  congr 1
  rw [List.getD_eq_getElem _ _ hi]

theorem partialArr_zero (a : List Int) : partialArr a 0 = List.replicate a.length 0 := by
  rw [partialArr]
  simp

theorem partialArr_full (a : List Int) : partialArr a a.length = a := by
  rw [partialArr]
  simp

theorem addsGo_inv (a : List Int) (ha : a.length < 2 ^ 64) (i : Nat) (ft : FenwickTree)
    (hi : i ≤ a.length) (hInv : FenwickInv (partialArr a i) ft.tree)
    (h0 : ft.tree.getD 0 0 = 0) :
    FenwickInv a (addsGo a ft i).tree ∧ (addsGo a ft i).tree.getD 0 0 = 0 := by
  rw [addsGo]
  by_cases hg : i < a.length
  · rw [if_pos hg]
    have hplen : (partialArr a i).length = a.length := partialArr_length a i hi
    have hstep := fenwickInv_add hInv i (a.getD i 0) (by omega) (by omega)
    have harr : (partialArr a i).set i ((partialArr a i).getD i 0 + a.getD i 0)
        = partialArr a (i + 1) := by
      rw [partialArr_getD_right a i hg]
      rw [show (0 : Int) + a.getD i 0 = a.getD i 0 by ring]
      exact partialArr_set a i hg
    rw [harr] at hstep
    exact addsGo_inv a ha (i + 1) (add ft i (a.getD i 0)) (by omega) hstep
      (by rw [add, addGo_getD_zero _ _ _ (by omega)]; exact h0)
  · rw [if_neg hg]
    have heq : i = a.length := by omega
    subst heq
    rw [partialArr_full] at hInv
    exact ⟨hInv, h0⟩
termination_by a.length - i

theorem buildByAdds_inv (a : List Int) (ha : a.length < 2 ^ 64) :
    FenwickInv a (buildByAdds a).tree ∧ (buildByAdds a).tree.getD 0 0 = 0 := by
  apply addsGo_inv a ha 0 (new a.length) (by omega)
  · rw [partialArr_zero]
    exact fenwickInv_new a.length
  · exact getD_replicate_zero _ _

/-- The invariant pins the tree down completely. -/
theorem fenwick_tree_unique {a t1 t2 : List Int} (h1 : FenwickInv a t1)
    (h10 : t1.getD 0 0 = 0) (h2 : FenwickInv a t2) (h20 : t2.getD 0 0 = 0) :
    t1 = t2 := by
  apply List.ext_getElem (h1.1.trans h2.1.symm)
  intro k hk1 hk2
  have hgd : t1.getD k 0 = t2.getD k 0 := by
    by_cases hk0 : k = 0
    · subst hk0
      rw [h10, h20]
    · have hkn : k ≤ a.length := by
        have := h1.1
        omega
      rw [h1.2 k (by omega) hkn, h2.2 k (by omega) hkn]
  rw [List.getD_eq_getElem _ _ hk1, List.getD_eq_getElem _ _ hk2] at hgd
  exact hgd

/-- C3: from_vec(a) produces exactly the internal tree that new(n) followed by
the n sequential adds produces. -/
theorem fenwick_from_vec_eq_adds (a : List Int) (ha : a.length < 2 ^ 64) :
    from_vec a = buildByAdds a := by
  obtain ⟨hf1, hf0⟩ := from_vec_inv a ha
  obtain ⟨hb1, hb0⟩ := buildByAdds_inv a ha
  have htree : (from_vec a).tree = (buildByAdds a).tree :=
    fenwick_tree_unique hf1 hf0 hb1 hb0
  cases hfv : from_vec a with
  | mk t1 =>
    cases hba : buildByAdds a with
    | mk t2 =>
      rw [hfv, hba] at htree
      simp only at htree
      rw [htree]

/-- Witness for C3 on [1, 2, 3]. -/
theorem fenwick_from_vec_eq_adds_witness :
    from_vec [1, 2, 3] = buildByAdds [1, 2, 3] :=
  fenwick_from_vec_eq_adds [1, 2, 3] (by norm_num)

/-- C2: whether the tree is reached by add calls from new(n) or built by
from_vec, query(i) returns the inclusive prefix sum of the logical array. -/
theorem fenwick_query_prefix_sum :
    (∀ (n : Nat) (ops : List (Nat × Int)), n < 2 ^ 64 → (∀ p ∈ ops, p.1 < n) →
      ∀ i, i < n → query (runAdds n ops) i = prefixSum (runLogical n ops) (i + 1)) ∧
    (∀ a : List Int, a.length < 2 ^ 64 → ∀ i, i < a.length →
      query (from_vec a) i = prefixSum a (i + 1)) := by
  constructor
  · intro n ops hn hops i hi
    have hlen0 : (List.replicate n (0 : Int)).length = n := by simp
    have hinv := runAdds_inv ops (List.replicate n 0) (new n) (by omega)
      (fenwickInv_new n) (by rw [hlen0]; exact hops)
    have hloglen : (runLogical n ops).length = n := by
      rw [runLogical, foldl_set_length, hlen0]
    rw [query, runAdds]
    have h := @queryGo_prefixSum (runLogical n ops)
      (runAdds n ops).tree (by rw [runLogical]; exact hinv)
      (by omega) (i + 1) (by omega) 0
    rw [runAdds] at h
    rw [h]
    ring
  · intro a ha i hi
    obtain ⟨hinv, _⟩ := from_vec_inv a ha
    rw [query]
    have h := queryGo_prefixSum hinv ha (i + 1) (by omega) 0
    rw [h]
    ring

/-- Witness for C2: three adds on a tree of size 4, then from_vec on [1,2,3]. -/
theorem fenwick_query_prefix_sum_witness :
    query (runAdds 4 [(0, 5), (2, 7), (0, 1)]) 2
      = prefixSum (runLogical 4 [(0, 5), (2, 7), (0, 1)]) 3 ∧
    query (from_vec [1, 2, 3]) 1 = prefixSum [1, 2, 3] 2 :=
  ⟨fenwick_query_prefix_sum.1 4 [(0, 5), (2, 7), (0, 1)] (by norm_num)
      (by intro p hp; fin_cases hp <;> norm_num) 2 (by norm_num),
   fenwick_query_prefix_sum.2 [1, 2, 3] (by norm_num) 1 (by norm_num)⟩

end Fenwick

namespace KMP

/-- Inner fallback loop shared by prefix_function and find_all:
`while j > 0 && c != s[j] { j = pi[j - 1]; }` where `c` is the current
character. The third conjunct of the guard is the loop's termination
measure; it is implied by the invariant `pi[k] ≤ k` that both callers
maintain (every stored entry is a border length, hence at most its index),
so it never cuts an actual execution of the source loop short. -/
def fallback (s pi : List Nat) (c j : Nat) : Nat :=
  if h : 0 < j ∧ c ≠ s.getD j 0 ∧ pi.getD (j - 1) 0 < j then
    fallback s pi c (pi.getD (j - 1) 0)
  else j
termination_by j
decreasing_by exact h.2.2

/-- Body of `for i in 1..n` in prefix_function: pick up `j = pi[i-1]`,
shrink it through the fallback loop, extend on a character match, and store
the result at position i. -/
def prefixFunctionGo (s pi : List Nat) (i : Nat) : List Nat :=
  if h : i < s.length then
    let j0 := pi.getD (i - 1) 0
    let j1 := fallback s pi (s.getD i 0) j0
    let j2 := if s.getD i 0 = s.getD j1 0 then j1 + 1 else j1
    prefixFunctionGo s (pi.set i j2) (i + 1)
  else pi
termination_by s.length - i

/-- kmp::prefix_function, over the pattern's byte list. -/
def prefix_function (s : List Nat) : List Nat :=
  prefixFunctionGo s (List.replicate s.length 0) 1

/-- k is the length of a proper prefix of l that is also a suffix of l. -/
def IsBorder (l : List Nat) (k : Nat) : Prop :=
  k < l.length ∧ l.take k = l.drop (l.length - k)

instance (l : List Nat) (k : Nat) : Decidable (IsBorder l k) := by
  unfold IsBorder
  infer_instance

theorem isBorder_zero (l : List Nat) (h : 0 < l.length) : IsBorder l 0 :=
  ⟨h, by simp⟩

/-- A border of the a-prefix of t is a border of t, provided a is a border
length of t. -/
theorem border_trans {t : List Nat} {a b : Nat} (ha : IsBorder t a)
    (hb : IsBorder (t.take a) b) : IsBorder t b := by
  have hal : a < t.length := ha.1
  have hta : (t.take a).length = a := by rw [List.length_take]; omega
  have hbl : b < a := by have h := hb.1; rw [hta] at h; exact h
  refine ⟨by omega, ?_⟩
  have h1 : t.take b = (t.take a).take b := by
    rw [List.take_take]
    congr 1
    omega
  rw [h1, hb.2, hta, ha.2, List.drop_drop]
  congr 1
  omega

/-- A border of t shorter than another border a of t is a border of the
a-prefix of t. -/
theorem border_down {t : List Nat} {a b : Nat} (ha : IsBorder t a) (hb : IsBorder t b)
    (hba : b < a) : IsBorder (t.take a) b := by
  have hal : a < t.length := ha.1
  have hta : (t.take a).length = a := by rw [List.length_take]; omega
  refine ⟨by omega, ?_⟩
  rw [hta]
  have h1 : (t.take a).take b = t.take b := by
    rw [List.take_take]
    congr 1
    omega
  rw [h1, ha.2, List.drop_drop]
  have h2 : t.length - a + (a - b) = t.length - b := by omega
  rw [h2]
  exact hb.2

/-- Extending the string by one character: the positive borders of t ++ [c]
are exactly the successors of the borders k of t whose next character t[k]
equals c. -/
theorem border_ext {t : List Nat} {c : Nat} {k : Nat} (hk : k < t.length) :
    IsBorder (t ++ [c]) (k + 1) ↔ IsBorder t k ∧ t.getD k 0 = c := by
  have hlen : (t ++ [c]).length = t.length + 1 := by simp
  have htk : (t ++ [c]).take (k + 1) = t.take k ++ [t.getD k 0] := by
    rw [List.take_append_of_le_length (show k + 1 ≤ t.length by omega), List.take_succ,
        List.getElem?_eq_getElem hk, List.getD_eq_getElem _ _ hk]
    rfl
  have hdr : (t ++ [c]).drop ((t ++ [c]).length - (k + 1)) = t.drop (t.length - k) ++ [c] := by
    rw [hlen, show t.length + 1 - (k + 1) = t.length - k from by omega,
        List.drop_append_of_le_length (show t.length - k ≤ t.length by omega)]
  constructor
  · rintro ⟨h1, h2⟩
    rw [htk, hdr] at h2
    obtain ⟨e1, e2⟩ := List.append_inj h2 (by rw [List.length_take, List.length_drop]; omega)
    refine ⟨⟨hk, e1⟩, ?_⟩
    simpa using e2
  · rintro ⟨⟨h1, h2⟩, h3⟩
    refine ⟨by omega, ?_⟩
    rw [htk, hdr, h2, h3]

theorem getD_take (s : List Nat) (i k : Nat) (hki : k < i) (hks : k < s.length) :
    (s.take i).getD k 0 = s.getD k 0 := by
  have h1 : k < (s.take i).length := by rw [List.length_take]; omega
  rw [List.getD_eq_getElem _ _ h1, List.getD_eq_getElem _ _ hks]
  simp

theorem getD_replicate0 (n i : Nat) : (List.replicate n (0 : Nat)).getD i 0 = 0 := by
  rw [List.getD_eq_getElem?_getD, List.getElem?_replicate]
  split <;> rfl


/-- Specification of one entry: pi[m] is the longest border of the first
m+1 characters. -/
def PiSpec (s pi : List Nat) (m : Nat) : Prop :=
  IsBorder (s.take (m + 1)) (pi.getD m 0) ∧
  ∀ k, IsBorder (s.take (m + 1)) k → k ≤ pi.getD m 0

/-- What the fallback loop returns when every entry of pi below i satisfies
its specification and j is a border of the first i characters: a border that
either is 0 or matches c next, and that dominates every c-matching border
at most j. -/
theorem fallback_spec (s pi : List Nat) (i c j : Nat) (hi : i ≤ s.length)
    (hInv : ∀ m, m < i → PiSpec s pi m)
    (hj : IsBorder (s.take i) j) :
    IsBorder (s.take i) (fallback s pi c j) ∧
    (fallback s pi c j = 0 ∨ c = s.getD (fallback s pi c j) 0) ∧
    ∀ k, IsBorder (s.take i) k → k ≤ j → s.getD k 0 = c → k ≤ fallback s pi c j := by
  have hti : (s.take i).length = i := by rw [List.length_take]; omega
  have hjlt : j < i := by have h := hj.1; rw [hti] at h; exact h
  rw [fallback]
  by_cases hg : 0 < j ∧ c ≠ s.getD j 0 ∧ pi.getD (j - 1) 0 < j
  · rw [dif_pos hg]
    have hm := hInv (j - 1) (by omega)
    rw [PiSpec, show j - 1 + 1 = j from by omega] at hm
    have htt : (s.take i).take j = s.take j := by
      rw [List.take_take]
      congr 1
      omega
    have hj'border : IsBorder (s.take i) (pi.getD (j - 1) 0) :=
      border_trans hj (htt.symm ▸ hm.1)
    have hrec := fallback_spec s pi i c (pi.getD (j - 1) 0) hi hInv hj'border
    refine ⟨hrec.1, hrec.2.1, ?_⟩
    intro k hk hkj hks
    have hkj' : k < j := by
      rcases Nat.lt_or_ge k j with h | h
      · exact h
      · exfalso
        have hkeq : k = j := by omega
        subst hkeq
        exact hg.2.1 hks.symm
    have hkb : IsBorder (s.take j) k := htt ▸ border_down hj hk hkj'
    exact hrec.2.2 k hk (hm.2 k hkb) hks
  · rw [dif_neg hg]
    refine ⟨hj, ?_, fun k _ hk _ => hk⟩
    by_cases h0 : j = 0
    · exact Or.inl h0
    · right
      by_contra hne
      apply hg
      refine ⟨by omega, hne, ?_⟩
      have hm := hInv (j - 1) (by omega)
      rw [PiSpec, show j - 1 + 1 = j from by omega] at hm
      have hlt := hm.1.1
      rw [List.length_take] at hlt
      omega
termination_by j
decreasing_by exact hg.2.2

/-- One outer iteration of prefix_function computes the longest border of
the first i+1 characters. -/
theorem step_correct (s pi : List Nat) (i : Nat) (hi : 1 ≤ i) (his : i < s.length)
    (hInv : ∀ m, m < i → PiSpec s pi m) (j1 j2 : Nat)
    (hj1 : j1 = fallback s pi (s.getD i 0) (pi.getD (i - 1) 0))
    (hj2 : j2 = if s.getD i 0 = s.getD j1 0 then j1 + 1 else j1) :
    IsBorder (s.take (i + 1)) j2 ∧ ∀ k, IsBorder (s.take (i + 1)) k → k ≤ j2 := by
  have hti : (s.take i).length = i := by rw [List.length_take]; omega
  have hm := hInv (i - 1) (by omega)
  rw [PiSpec, show i - 1 + 1 = i from by omega] at hm
  have hfs := fallback_spec s pi i (s.getD i 0) (pi.getD (i - 1) 0) (by omega) hInv hm.1
  rw [← hj1] at hfs
  have hj1lt : j1 < i := by
    have h := hfs.1.1
    rw [hti] at h
    exact h
  have htake : s.take (i + 1) = s.take i ++ [s.getD i 0] := by
    rw [List.take_succ, List.getElem?_eq_getElem his, List.getD_eq_getElem _ _ his]
    rfl
  by_cases hc : s.getD i 0 = s.getD j1 0
  · rw [if_pos hc] at hj2
    subst hj2
    constructor
    · rw [htake]
      refine (border_ext (by omega)).mpr ⟨hfs.1, ?_⟩
      rw [getD_take s i j1 hj1lt (by omega)]
      exact hc.symm
    · intro k hk
      match k with
      | 0 => omega
      | k' + 1 =>
        rw [htake] at hk
        have hk'lt : k' < (s.take i).length := by
          have h := hk.1
          rw [List.length_append, hti] at h
          simp only [List.length_singleton] at h
          omega
        obtain ⟨hb, hcc⟩ := (border_ext hk'lt).mp hk
        have hk'i : k' < i := by rw [hti] at hk'lt; exact hk'lt
        have hsc : s.getD k' 0 = s.getD i 0 := by
          rw [← getD_take s i k' hk'i (by omega)]
          exact hcc
        have := hfs.2.2 k' hb (hm.2 k' hb) hsc
        omega
  · rw [if_neg hc] at hj2
    have hj10 : j1 = 0 := by
      rcases hfs.2.1 with h | h
      · exact h
      · exact absurd h hc
    subst hj2
    subst hj10
    constructor
    · exact isBorder_zero _ (by rw [List.length_take]; omega)
    · intro k hk
      match k with
      | 0 => omega
      | k' + 1 =>
        exfalso
        rw [htake] at hk
        have hk'lt : k' < (s.take i).length := by
          have h := hk.1
          rw [List.length_append, hti] at h
          simp only [List.length_singleton] at h
          omega
        obtain ⟨hb, hcc⟩ := (border_ext hk'lt).mp hk
        have hk'i : k' < i := by rw [hti] at hk'lt; exact hk'lt
        have hsc : s.getD k' 0 = s.getD i 0 := by
          rw [← getD_take s i k' hk'i (by omega)]
          exact hcc
        have hk0 : k' ≤ 0 := hfs.2.2 k' hb (hm.2 k' hb) hsc
        have hk'0 : k' = 0 := by omega
        subst hk'0
        exact hc hsc.symm

/-- Unfolding of one iteration of prefixFunctionGo. -/
theorem prefixFunctionGo_step_eq (s pi : List Nat) (i : Nat) (h : i < s.length) :
    prefixFunctionGo s pi i =
      prefixFunctionGo s
        (pi.set i
          (if s.getD i 0 = s.getD (fallback s pi (s.getD i 0) (pi.getD (i - 1) 0)) 0
           then fallback s pi (s.getD i 0) (pi.getD (i - 1) 0) + 1
           else fallback s pi (s.getD i 0) (pi.getD (i - 1) 0)))
        (i + 1) := by
  rw [prefixFunctionGo, dif_pos h]

/-- The outer loop establishes the specification at every index. -/
theorem prefixFunctionGo_inv (s pi : List Nat) (i : Nat) (hi : 1 ≤ i)
    (hlen : pi.length = s.length)
    (hInv : ∀ m, m < i → m < s.length → PiSpec s pi m) :
    (prefixFunctionGo s pi i).length = s.length ∧
    ∀ m, m < s.length → PiSpec s (prefixFunctionGo s pi i) m := by
  by_cases hg : i < s.length
  · rw [prefixFunctionGo_step_eq s pi i hg]
    apply prefixFunctionGo_inv s _ (i + 1) (by omega) (by rw [List.length_set]; exact hlen)
    intro m hm hms
    by_cases hmi : m = i
    · subst hmi
      have hstep := step_correct s pi m hi hg (fun m' hm' => hInv m' hm' (by omega)) _ _ rfl rfl
      constructor
      · rw [SparseT.getD_set_self (by omega)]
        exact hstep.1
      · intro k hk
        rw [SparseT.getD_set_self (by omega)]
        exact hstep.2 k hk
    · have hold := hInv m (by omega) hms
      constructor
      · rw [SparseT.getD_set_ne (fun h => hmi h.symm)]
        exact hold.1
      · intro k hk
        rw [SparseT.getD_set_ne (fun h => hmi h.symm)]
        exact hold.2 k hk
  · rw [prefixFunctionGo, dif_neg hg]
    exact ⟨hlen, fun m hm => hInv m (by omega) hm⟩
termination_by s.length - i

/-- prefix_function returns an array of the pattern's length whose every
entry satisfies the longest-border specification. -/
theorem prefix_function_spec (s : List Nat) :
    (prefix_function s).length = s.length ∧
    ∀ m, m < s.length → PiSpec s (prefix_function s) m := by
  rw [prefix_function]
  apply prefixFunctionGo_inv s _ 1 le_rfl (by rw [List.length_replicate])
  intro m hm hms
  have hm0 : m = 0 := by omega
  subst hm0
  constructor
  · rw [getD_replicate0]
    exact isBorder_zero _ (by rw [List.length_take]; omega)
  · intro k hk
    have h := hk.1
    rw [List.length_take] at h
    rw [getD_replicate0]
    omega

/-- C7: prefix_function returns an array pi of the pattern's length in which
pi[i] is the length of the longest proper prefix of pattern[0..=i] that is
also a suffix of it (so in particular pi[0] = 0, as 0 is the only proper
border length of a one-character string); on the bytes of "ababcabab" it
returns [0,0,1,2,0,1,2,3,4]. -/
theorem kmp_prefix_function_longest_border :
    (∀ s : List Nat, (prefix_function s).length = s.length ∧
      ∀ i, i < s.length →
        IsBorder (s.take (i + 1)) ((prefix_function s).getD i 0) ∧
        ∀ k, IsBorder (s.take (i + 1)) k → k ≤ (prefix_function s).getD i 0) ∧
    prefix_function [97, 98, 97, 98, 99, 97, 98, 97, 98] = [0, 0, 1, 2, 0, 1, 2, 3, 4] := by
  constructor
  · intro s
    exact ⟨(prefix_function_spec s).1, fun i hi => (prefix_function_spec s).2 i hi⟩
  · simp [prefix_function, prefixFunctionGo, fallback, List.replicate]

/-- Witness for C7 at the pattern [97, 98, 97]: its third entry is a border
of the whole pattern. -/
theorem kmp_prefix_function_longest_border_witness :
    2 < 3 ∧ IsBorder ([97, 98, 97].take (2 + 1)) ((prefix_function [97, 98, 97]).getD 2 0) :=
  ⟨by norm_num, ((kmp_prefix_function_longest_border.1 [97, 98, 97]).2 2 (by norm_num)).1⟩

/-- Loop body of find_all over text positions: shrink j through the shared
fallback loop, extend on a match of the current text character, and on a
full match record the start index i + 1 - m and restart from pi[m-1]. -/
def findAllGo (t p pi : List Nat) (i j : Nat) (res : List Nat) : List Nat :=
  if h : i < t.length then
    let j1 := fallback p pi (t.getD i 0) j
    let j2 := if t.getD i 0 = p.getD j1 0 then j1 + 1 else j1
    if j2 = p.length then
      findAllGo t p pi (i + 1) (pi.getD (j2 - 1) 0) (res ++ [i + 1 - p.length])
    else
      findAllGo t p pi (i + 1) j2 res
  else res
termination_by t.length - i

/-- kmp::find_all over the byte lists of text and pattern. -/
def find_all (t p : List Nat) : List Nat :=
  if p.length = 0 ∨ p.length > t.length then []
  else findAllGo t p (prefix_function p) 0 0 []

/-- The k-character prefix of the pattern is a suffix of the first i
characters of the text. -/
def MatchLen (t p : List Nat) (i k : Nat) : Prop :=
  k ≤ i ∧ k ≤ p.length ∧ p.take k = (t.take i).drop (i - k)

theorem matchLen_zero (t p : List Nat) (i : Nat) : MatchLen t p i 0 :=
  ⟨Nat.zero_le _, Nat.zero_le _, by
    rw [List.take_zero, List.drop_eq_nil_of_le (by rw [List.length_take]; omega)]⟩

/-- Any border of the matched prefix is itself matched. -/
theorem matchLen_of_border {t p : List Nat} {i j k : Nat} (hj : MatchLen t p i j)
    (hb : IsBorder (p.take j) k) : MatchLen t p i k := by
  have hjp : j ≤ p.length := hj.2.1
  have hpj : (p.take j).length = j := by rw [List.length_take]; omega
  have hkj : k < j := by have h := hb.1; rw [hpj] at h; exact h
  have hji : j ≤ i := hj.1
  refine ⟨by omega, by omega, ?_⟩
  have h1 : p.take k = (p.take j).take k := by
    rw [List.take_take]
    congr 1
    omega
  rw [h1, hb.2, hpj, hj.2.2, List.drop_drop]
  congr 1
  omega

/-- A shorter matched prefix is a border of a longer matched prefix. -/
theorem matchLen_to_border {t p : List Nat} {i j k : Nat} (hj : MatchLen t p i j)
    (hk : MatchLen t p i k) (hkj : k < j) : IsBorder (p.take j) k := by
  have hjp : j ≤ p.length := hj.2.1
  have hji : j ≤ i := hj.1
  have hpj : (p.take j).length = j := by rw [List.length_take]; omega
  refine ⟨by omega, ?_⟩
  rw [hpj]
  have h1 : (p.take j).take k = p.take k := by
    rw [List.take_take]
    congr 1
    omega
  rw [h1, hj.2.2, List.drop_drop]
  have h2 : i - j + (j - k) = i - k := by omega
  rw [h2]
  exact hk.2.2

/-- Extending the processed text by one character. -/
theorem matchLen_ext {t p : List Nat} {i k : Nat} (hit : i < t.length) :
    MatchLen t p (i + 1) (k + 1) ↔
      MatchLen t p i k ∧ k < p.length ∧ p.getD k 0 = t.getD i 0 := by
  have hti : (t.take i).length = i := by rw [List.length_take]; omega
  have htake : t.take (i + 1) = t.take i ++ [t.getD i 0] := by
    rw [List.take_succ, List.getElem?_eq_getElem hit, List.getD_eq_getElem _ _ hit]
    rfl
  have hdr : (t.take (i + 1)).drop (i + 1 - (k + 1)) =
      (t.take i).drop (i - k) ++ [t.getD i 0] := by
    rw [htake, show i + 1 - (k + 1) = i - k from by omega,
        List.drop_append_of_le_length (show i - k ≤ (t.take i).length by omega)]
  constructor
  · rintro ⟨h1, h2, h3⟩
    have hkp : k < p.length := by omega
    rw [hdr, List.take_succ, List.getElem?_eq_getElem hkp] at h3
    have h3' : p.take k ++ [p[k]] = (t.take i).drop (i - k) ++ [t.getD i 0] := h3
    obtain ⟨e1, e2⟩ := List.append_inj h3'
      (by rw [List.length_take, List.length_drop, hti]; omega)
    refine ⟨⟨by omega, by omega, e1⟩, hkp, ?_⟩
    rw [List.getD_eq_getElem _ _ hkp]
    simpa using e2
  · rintro ⟨h1, hkp, h2⟩
    have h1i : k ≤ i := h1.1
    refine ⟨by omega, by omega, ?_⟩
    rw [hdr, List.take_succ, List.getElem?_eq_getElem hkp, h1.2.2, ← h2,
        List.getD_eq_getElem _ _ hkp]
    rfl

/-- A full match ending at position i is an occurrence starting at
i - p.length. -/
theorem matchLen_full_occ {t p : List Nat} {i : Nat}
    (h : MatchLen t p i p.length) :
    (t.drop (i - p.length)).take p.length = p := by
  have h1 : p.length ≤ i := h.1
  have h3 := h.2.2
  rw [List.take_length, List.drop_take] at h3
  rw [show i - (i - p.length) = p.length from by omega] at h3
  exact h3.symm

/-- An occurrence starting at x is a full match ending at x + p.length. -/
theorem occ_matchLen {t p : List Nat} {x : Nat}
    (h : (t.drop x).take p.length = p) :
    MatchLen t p (x + p.length) p.length := by
  refine ⟨by omega, le_rfl, ?_⟩
  rw [List.take_length, List.drop_take, show x + p.length - p.length = x from by omega,
      show x + p.length - x = p.length from by omega, h]

/-- An occurrence of a non-empty pattern fits inside the text. -/
theorem occ_le (t p : List Nat) (x : Nat) (h : (t.drop x).take p.length = p)
    (hm : 0 < p.length) : x + p.length ≤ t.length := by
  have hlen := congrArg List.length h
  rw [List.length_take, List.length_drop] at hlen
  omega

/-- The fallback loop during the text scan: starting from a matched prefix
length j < m it returns a matched prefix length that is 0 or matches c
next, and dominates every c-matching matched length at most j. -/
theorem fallback_spec_match (t p pi : List Nat) (i c j : Nat)
    (hInv : ∀ m', m' < p.length → PiSpec p pi m')
    (hj : MatchLen t p i j) (hjm : j < p.length) :
    MatchLen t p i (fallback p pi c j) ∧ fallback p pi c j ≤ j ∧
    (fallback p pi c j = 0 ∨ c = p.getD (fallback p pi c j) 0) ∧
    ∀ k, MatchLen t p i k → k ≤ j → p.getD k 0 = c → k ≤ fallback p pi c j := by
  rw [fallback]
  by_cases hg : 0 < j ∧ c ≠ p.getD j 0 ∧ pi.getD (j - 1) 0 < j
  · rw [dif_pos hg]
    have hm := hInv (j - 1) (by omega)
    rw [PiSpec, show j - 1 + 1 = j from by omega] at hm
    have hj' : MatchLen t p i (pi.getD (j - 1) 0) := matchLen_of_border hj hm.1
    have hrec := fallback_spec_match t p pi i c (pi.getD (j - 1) 0) hInv hj'
      (by omega)
    refine ⟨hrec.1, by omega, hrec.2.2.1, ?_⟩
    intro k hk hkj hks
    have hkj' : k < j := by
      rcases Nat.lt_or_ge k j with h | h
      · exact h
      · exfalso
        have hkeq : k = j := by omega
        subst hkeq
        exact hg.2.1 hks.symm
    have hkb : IsBorder (p.take j) k := matchLen_to_border hj hk hkj'
    exact hrec.2.2.2 k hk (hm.2 k hkb) hks
  · rw [dif_neg hg]
    refine ⟨hj, le_rfl, ?_, fun k _ hk _ => hk⟩
    by_cases h0 : j = 0
    · exact Or.inl h0
    · right
      by_contra hne
      apply hg
      refine ⟨by omega, hne, ?_⟩
      have hm := hInv (j - 1) (by omega)
      rw [PiSpec, show j - 1 + 1 = j from by omega] at hm
      have hlt := hm.1.1
      rw [List.length_take] at hlt
      omega
termination_by j
decreasing_by exact hg.2.2

/-- Unfolding of one iteration of findAllGo. -/
theorem findAllGo_step_eq (t p pi : List Nat) (i j j2 : Nat) (res : List Nat)
    (h : i < t.length)
    (hj2 : j2 = if t.getD i 0 = p.getD (fallback p pi (t.getD i 0) j) 0
                then fallback p pi (t.getD i 0) j + 1
                else fallback p pi (t.getD i 0) j) :
    findAllGo t p pi i j res =
      if j2 = p.length
      then findAllGo t p pi (i + 1) (pi.getD (j2 - 1) 0) (res ++ [i + 1 - p.length])
      else findAllGo t p pi (i + 1) j2 res := by
  subst hj2
  rw [findAllGo, dif_pos h]

/-- After one scan step the new j is the longest prefix of the pattern that
is a suffix of the first i+1 text characters. -/
theorem scan_step (t p pi : List Nat) (i j : Nat) (hm : 0 < p.length)
    (hInv : ∀ m', m' < p.length → PiSpec p pi m')
    (hij : MatchLen t p i j) (hjm : j < p.length)
    (hmax : ∀ k, MatchLen t p i k → k < p.length → k ≤ j)
    (hg : i < t.length) (j1 j2 : Nat)
    (hj1 : j1 = fallback p pi (t.getD i 0) j)
    (hj2 : j2 = if t.getD i 0 = p.getD j1 0 then j1 + 1 else j1) :
    MatchLen t p (i + 1) j2 ∧ j2 ≤ p.length ∧
    ∀ k, MatchLen t p (i + 1) k → k ≤ j2 := by
  have hfs := fallback_spec_match t p pi i (t.getD i 0) j hInv hij hjm
  rw [← hj1] at hfs
  have hj1m : j1 < p.length := by
    have := hfs.2.1
    omega
  by_cases hcc : t.getD i 0 = p.getD j1 0
  · rw [if_pos hcc] at hj2
    subst hj2
    refine ⟨(matchLen_ext hg).mpr ⟨hfs.1, hj1m, hcc.symm⟩, by omega, ?_⟩
    intro k hk
    match k with
    | 0 => omega
    | k' + 1 =>
      obtain ⟨hk', hk'p, hk'c⟩ := (matchLen_ext hg).mp hk
      have h1 : k' ≤ j := hmax k' hk' hk'p
      have h2 : k' ≤ j1 := hfs.2.2.2 k' hk' h1 hk'c
      omega
  · rw [if_neg hcc] at hj2
    have hj10 : j1 = 0 := by
      rcases hfs.2.2.1 with h | h
      · exact h
      · exact absurd h hcc
    subst hj2
    subst hj10
    refine ⟨matchLen_zero t p (i + 1), by omega, ?_⟩
    intro k hk
    match k with
    | 0 => omega
    | k' + 1 =>
      exfalso
      obtain ⟨hk', hk'p, hk'c⟩ := (matchLen_ext hg).mp hk
      have h1 : k' ≤ j := hmax k' hk' hk'p
      have h2 : k' ≤ 0 := hfs.2.2.2 k' hk' h1 hk'c
      have hk'0 : k' = 0 := by omega
      subst hk'0
      exact hcc hk'c.symm

/-- After a full match, restarting from pi[m-1] again yields the longest
strictly-shorter matched prefix. -/
theorem reset_inv (t p pi : List Nat) (i : Nat) (hm : 0 < p.length)
    (hInv : ∀ m', m' < p.length → PiSpec p pi m')
    (hfull : MatchLen t p i p.length) :
    MatchLen t p i (pi.getD (p.length - 1) 0) ∧ pi.getD (p.length - 1) 0 < p.length ∧
    ∀ k, MatchLen t p i k → k < p.length → k ≤ pi.getD (p.length - 1) 0 := by
  have hpi := hInv (p.length - 1) (by omega)
  rw [PiSpec, show p.length - 1 + 1 = p.length from by omega, List.take_length] at hpi
  refine ⟨?_, hpi.1.1, ?_⟩
  · apply matchLen_of_border hfull
    rw [List.take_length]
    exact hpi.1
  · intro k hk hkm
    apply hpi.2
    have hb := matchLen_to_border hfull hk hkm
    rw [List.take_length] at hb
    exact hb

/-- The scan loop ends with exactly the occurrence starts, in increasing
order. -/
theorem findAllGo_inv (t p pi : List Nat) (hm : 0 < p.length)
    (hInv : ∀ m', m' < p.length → PiSpec p pi m')
    (i j : Nat) (res : List Nat)
    (hij : MatchLen t p i j) (hjm : j < p.length)
    (hmax : ∀ k, MatchLen t p i k → k < p.length → k ≤ j)
    (hres : ∀ x, x ∈ res ↔ x + p.length ≤ i ∧ (t.drop x).take p.length = p)
    (hsort : res.Pairwise (· < ·)) :
    (∀ x, x ∈ findAllGo t p pi i j res ↔ (t.drop x).take p.length = p) ∧
    (findAllGo t p pi i j res).Pairwise (· < ·) := by
  by_cases hg : i < t.length
  · obtain ⟨j2, hj2⟩ : ∃ j2, j2 =
        (if t.getD i 0 = p.getD (fallback p pi (t.getD i 0) j) 0
         then fallback p pi (t.getD i 0) j + 1
         else fallback p pi (t.getD i 0) j) := ⟨_, rfl⟩
    rw [findAllGo_step_eq t p pi i j j2 res hg hj2]
    have hstep := scan_step t p pi i j hm hInv hij hjm hmax hg _ j2 rfl hj2
    by_cases hfl : j2 = p.length
    · rw [if_pos hfl, hfl]
      have hfull : MatchLen t p (i + 1) p.length := hfl ▸ hstep.1
      have hmle : p.length ≤ i + 1 := hfull.1
      have hreset := reset_inv t p pi (i + 1) hm hInv hfull
      apply findAllGo_inv t p pi hm hInv (i + 1) _ _ hreset.1 hreset.2.1 hreset.2.2
      · intro x
        rw [List.mem_append, List.mem_singleton, hres x]
        constructor
        · rintro (⟨h1, h2⟩ | hx)
          · exact ⟨by omega, h2⟩
          · subst hx
            exact ⟨by omega, matchLen_full_occ hfull⟩
        · rintro ⟨h1, h2⟩
          rcases Nat.lt_or_ge (x + p.length) (i + 1) with hlt | hge
          · left
            exact ⟨by omega, h2⟩
          · right
            omega
      · rw [List.pairwise_append]
        refine ⟨hsort, List.pairwise_singleton _ _, ?_⟩
        intro x hx y hy
        rw [List.mem_singleton] at hy
        subst hy
        have := (hres x).mp hx
        omega
    · rw [if_neg hfl]
      apply findAllGo_inv t p pi hm hInv (i + 1) j2 res hstep.1
        (by have := hstep.2.1; omega) (fun k hk _ => hstep.2.2 k hk) ?_ hsort
      intro x
      rw [hres x]
      constructor
      · rintro ⟨h1, h2⟩
        exact ⟨by omega, h2⟩
      · rintro ⟨h1, h2⟩
        refine ⟨?_, h2⟩
        rcases Nat.lt_or_ge (x + p.length) (i + 1) with hlt | hge
        · omega
        · exfalso
          have hxeq : x + p.length = i + 1 := by omega
          have hfull : MatchLen t p (i + 1) p.length := by
            have ho := occ_matchLen h2
            rw [hxeq] at ho
            exact ho
          have := hstep.2.2 p.length hfull
          have h2le := hstep.2.1
          omega
  · rw [findAllGo, dif_neg hg]
    refine ⟨?_, hsort⟩
    intro x
    rw [hres x]
    constructor
    · exact fun h => h.2
    · intro h
      have := occ_le t p x h hm
      exact ⟨by omega, h⟩
termination_by t.length - i

/-- C1: find_all returns exactly the 0-based start offsets at which the
pattern occurs in the text (offsets x with text[x .. x+m] = pattern,
overlapping ones included), in strictly increasing order, and returns []
when the pattern is empty or longer than the text. -/
theorem kmp_find_all_occurrences (t p : List Nat) :
    ((p.length = 0 ∨ p.length > t.length) → find_all t p = []) ∧
    (find_all t p).Pairwise (· < ·) ∧
    (0 < p.length → ∀ x, x ∈ find_all t p ↔ (t.drop x).take p.length = p) := by
  by_cases hdeg : p.length = 0 ∨ p.length > t.length
  · rw [find_all, if_pos hdeg]
    refine ⟨fun _ => rfl, List.Pairwise.nil, ?_⟩
    intro hm x
    simp only [List.not_mem_nil, false_iff]
    intro hocc
    have hle := occ_le t p x hocc hm
    rcases hdeg with h | h
    · omega
    · omega
  · rw [find_all, if_neg hdeg]
    have hm : 0 < p.length := by
      rcases Nat.eq_zero_or_pos p.length with h | h
      · exact absurd (Or.inl h) hdeg
      · exact h
    have hmn : ¬ p.length > t.length := fun h => hdeg (Or.inr h)
    have hgo := findAllGo_inv t p (prefix_function p) hm
      (fun m' hm' => (prefix_function_spec p).2 m' hm')
      0 0 [] (matchLen_zero t p 0) hm
      (fun k hk _ => hk.1)
      (fun x => Iff.intro (fun h => absurd h (List.not_mem_nil x))
        (fun h => absurd h.1 (by omega)))
      List.Pairwise.nil
    exact ⟨fun h => absurd h hdeg, hgo.2, fun _ x => hgo.1 x⟩

/-- Witness for C1: pattern [97, 98] in text [97, 98, 97, 98], offset 0. -/
theorem kmp_find_all_occurrences_witness :
    0 < ([97, 98] : List Nat).length ∧
    (0 ∈ find_all [97, 98, 97, 98] [97, 98] ↔
      (([97, 98, 97, 98] : List Nat).drop 0).take ([97, 98] : List Nat).length
        = [97, 98]) :=
  ⟨by norm_num, (kmp_find_all_occurrences [97, 98, 97, 98] [97, 98]).2.2 (by norm_num) 0⟩

end KMP
